import Mathlib

/-!
Shallow embedding of the tvtools interval-transformation engine
(`tvtools/tvexpose.py`, `tvtools/tvevent.py`): period-indexed exposure
records are turned into a per-subject partition of the observation window
into inclusive, integer-day intervals, and outcome events are merged into
such partitions.

Dates are modelled as `Int` (days since epoch, as the Python converts all
dates to numeric days).  A pandas DataFrame column subset
`(id, exp_start, exp_stop, exp_value, orig_exp_binary, orig_exp_category,
study_entry, study_exit)` is modelled as a `List Row`.  The pandas
`groupby('id').shift(±1)` idiom reads the neighbouring row of the same
subject in the frame sorted by `(id, exp_start, exp_stop)`; since the sort
key starts with `id`, each subject forms a contiguous block, and the
engine is embedded subject-block-wise: every stage below is the per-block
meaning of the corresponding vectorised pandas stage.
-/

namespace TvTools

/-- One row of the master (Subjects) table: identifier and observation
window `[entry, exit]` in days. -/
structure Subj where
  pid : Int
  entry : Int
  exit : Int
deriving DecidableEq, Repr

/-- One raw exposure record: subject id, period start/stop, exposure value. -/
structure Rec where
  pid : Int
  rstart : Int
  rstop : Int
  value : Int
deriving DecidableEq, Repr

/-- One working interval row, mirroring the columns carried through
`tvexpose`: `exp_start`/`exp_stop`/`exp_value` plus the helper columns
`orig_exp_binary`, `orig_exp_category` and the joined `study_entry`,
`study_exit`. -/
structure Row where
  pid : Int
  start : Int
  stop : Int
  value : Int
  binary : Int
  cat : Int
  entry : Int
  exit : Int
deriving DecidableEq, Repr

/-- Generic insertion of an element into a list sorted by the boolean
preorder `le`; stable (the inserted element goes before elements of equal
key). -/
def insertLe (le : α → α → Bool) (x : α) : List α → List α
  | [] => [x]
  | y :: ys => if le x y then x :: y :: ys else y :: insertLe le x ys

/-- Stable insertion sort by the boolean preorder `le`; embeds
`DataFrame.sort_values`. -/
def sortBy (le : α → α → Bool) : List α → List α
  | [] => []
  | x :: xs => insertLe le x (sortBy le xs)

/-- The `sort_values(['id', 'exp_start', 'exp_stop'])` key order. -/
def rowLe (a b : Row) : Bool :=
  decide (a.pid < b.pid) ||
    (decide (a.pid = b.pid) &&
      (decide (a.start < b.start) ||
        (decide (a.start = b.start) && decide (a.stop ≤ b.stop))))

/-- Sort rows the way every `tvexpose` stage does. -/
def sortRows (l : List Row) : List Row := sortBy rowLe l

/-! ### Data preparation (tvexpose.py lines 328-362)

After the inner-join with the master table, `exp_start` is clipped to
`max(exp_start, study_entry)`, `exp_stop` to `min(exp_stop, study_exit)`,
rows with `exp_stop < exp_start` or outside the window are dropped, the
helper columns are derived and the frame is sorted.  `lag`, `washout` and
`window` are 0/None in every configuration considered here, so those
no-op branches are omitted. -/

/-- Clip a record to the subject's observation window (lines 334-335). -/
def clipRec (m : Subj) (r : Rec) : Rec :=
  { r with rstart := max r.rstart m.entry, rstop := min r.rstop m.exit }

/-- The two keep-filters of lines 338-340. -/
def validRec (m : Subj) (r : Rec) : Bool :=
  decide (r.rstop ≥ r.rstart) && decide (r.rstart ≤ m.exit) && decide (r.rstop ≥ m.entry)

/-- Attach the helper columns `orig_exp_binary`, `orig_exp_category` and
the joined `study_entry`/`study_exit` (lines 328, 358-359). -/
def recToRow (ref : Int) (m : Subj) (r : Rec) : Row :=
  { pid := r.pid, start := r.rstart, stop := r.rstop, value := r.value,
    binary := if r.value ≠ ref then 1 else 0, cat := r.value,
    entry := m.entry, exit := m.exit }

/-- Per-subject data preparation: clip, filter, derive columns, sort. -/
def prep (ref : Int) (m : Subj) (rs : List Rec) : List Row :=
  sortRows (((rs.map (clipRec m)).filter (validRec m)).map (recToRow ref m))

/-! ### Period merging (`_merge_periods`, tvexpose.py lines 575-621)

Each iteration of the bounded loop sorts, computes the gap
`_next_start - exp_stop` to the next row of the same subject, extends
`exp_stop` to `max(exp_stop, _next_stop)` on every row whose gap is
`≤ merge_days` and whose value matches, and then drops each row whose
positional predecessor merged and whose (updated) extent is contained in
the predecessor's (updated) extent.  The loop runs `max_iter = 1000`
times at most and breaks when no row can merge; on fuel exhaustion it
silently returns the current state (the Python has no error path). -/

/-- The `can_merge` mask of lines 591-595 for a row `a` and its
within-subject successor `b` (the `groupby('id')` shift makes the mask
False across subject boundaries, hence the `pid` guard). -/
def canMergePair (md : Int) (a b : Row) : Bool :=
  decide (a.pid = b.pid) && decide (b.start - a.stop ≤ md) && decide (a.value = b.value)

/-- Phase 1 of one merge iteration (line 601): extend each mergeable
row's stop to `max(exp_stop, _next_stop)`; also record the `can_merge`
flag of each row for phase 2. -/
def updateStops (md : Int) : List Row → List (Row × Bool)
  | [] => []
  | [a] => [(a, false)]
  | a :: b :: t =>
      (if canMergePair md a b then ({ a with stop := max a.stop b.stop }, true) else (a, false))
        :: updateStops md (b :: t)

/-- Phase 2 of one merge iteration (lines 603-613): drop a row iff its
positional predecessor merged and the row's updated extent lies inside
the predecessor's updated extent.  The predecessor is positional
(`can_merge.shift(1)`), dropped or not. -/
def dropSubsumed (prev : Row × Bool) : List (Row × Bool) → List Row
  | [] => []
  | p :: t =>
      if prev.2 && decide (p.1.start ≥ prev.1.start) && decide (p.1.stop ≤ prev.1.stop) then
        dropSubsumed p t
      else
        p.1 :: dropSubsumed p t

/-- One full merge iteration body applied to the already-sorted frame. -/
def mergePass (md : Int) (l : List Row) : List Row :=
  match updateStops md l with
  | [] => []
  | h :: t => h.1 :: dropSubsumed h t

/-- Whether any adjacent within-subject pair can merge (the
`can_merge.any()` break test of line 597). -/
def anyCanMerge (md : Int) : List Row → Bool
  | [] => false
  | [_] => false
  | a :: b :: t => canMergePair md a b || anyCanMerge md (b :: t)

/-- The bounded fixed-point loop of `_merge_periods` (lines 580-614),
with the source's `max_iter = 1000` as fuel.  On fuel exhaustion the
current (possibly unstabilised) state is returned; there is no error. -/
def mergeLoop (md : Int) : Nat → List Row → List Row
  | 0, l => l
  | fuel + 1, l =>
      let s := sortRows l
      if anyCanMerge md s then mergeLoop md fuel (mergePass md s) else s

/-- The `drop_duplicates` key of line 621. -/
def rowKey (r : Row) : Int × Int × Int × Int := (r.pid, r.start, r.stop, r.value)

/-- Keep-first deduplication on `(id, exp_start, exp_stop, exp_value)`
(line 621). -/
def dedupRows (seen : List (Int × Int × Int × Int)) : List Row → List Row
  | [] => []
  | r :: t =>
      if seen.contains (rowKey r) then dedupRows seen t
      else r :: dedupRows (rowKey r :: seen) t

/-- The `_merge_periods` helper (lines 575-621).  Its `reference`
argument is unused in the source and omitted here. -/
def mergePeriods (md : Int) (l : List Row) : List Row :=
  if l.isEmpty then l else dedupRows [] (mergeLoop md 1000 l)

/-! ### Layer overlap resolution (`_resolve_overlaps_layer`, lines 661-704,
and the iterative driver in `tvexpose`, lines 383-400) -/

/-- The `has_overlap` mask of lines 676-680: the within-subject successor
starts inside the current row and carries a different value. -/
def overlapsNext (a b : Row) : Bool :=
  decide (a.pid = b.pid) && decide (b.start ≤ a.stop) && decide (a.value ≠ b.value)

/-- One pass of layer resolution over the sorted frame: each overlapped
row is truncated to end just before its successor starts; rows that
originally extended beyond the successor re-emit a resumption segment
starting the day after the successor's stop.  Returns
(truncated-and-filtered rows, resumption segments). -/
def layerWalk : List Row → List Row × List Row
  | [] => ([], [])
  | [a] => ([a], [])
  | a :: b :: t =>
      let rest := layerWalk (b :: t)
      let ov := overlapsNext a b
      let post :=
        (if ov && decide (a.stop > b.stop) then [{ a with start := b.stop + 1 }] else []).filter
          (fun p => decide (p.start ≤ p.stop))
      let a2 := if ov then { a with stop := b.start - 1 } else a
      ((if decide (a2.start ≤ a2.stop) then a2 :: rest.1 else rest.1), post ++ rest.2)

/-- The `_resolve_overlaps_layer` helper (lines 661-704): sort, truncate
and collect resumption segments, and re-sort only when resumption
segments were produced (as the source does). -/
def layerResolve (l : List Row) : List Row :=
  let w := layerWalk (sortRows l)
  if w.2.isEmpty then w.1 else sortRows (w.1 ++ w.2)

/-- The remaining-overlap test of lines 391-397: some adjacent
within-subject pair still overlaps with different values. -/
def hasRemaining : List Row → Bool
  | [] => false
  | [_] => false
  | a :: b :: t => overlapsNext a b || hasRemaining (b :: t)

/-- The iterative layer driver of `tvexpose` (lines 383-400): resolve,
re-merge, sort, and stop as soon as no different-value overlap remains,
bounded by the source's `max_iter = 1000`.  On fuel exhaustion the
current state is returned; there is no error path. -/
def layerLoop (md : Int) : Nat → List Row → List Row
  | 0, l => l
  | fuel + 1, l =>
      let e := sortRows (mergePeriods md (layerResolve l))
      if hasRemaining e then layerLoop md fuel e else e

/-! ### Overlap resolution, split strategy (`_resolve_overlaps_split`,
lines 648-658).  The source collects the boundary points into an unused
local and returns its input unchanged — the inline comment admits it is
a simplified implementation that does not split. -/

/-- The `_resolve_overlaps_split` helper: returns the frame unchanged. -/
def resolveOverlapsSplit (l : List Row) : List Row := l

/-! ### Gap periods (`_create_gap_periods`, lines 707-742)

For every adjacent within-subject pair whose uncovered span
`_next_start - exp_stop - 1` strictly exceeds `grace`, a reference-value
row covering exactly the span is produced.  Spans of positive length up
to `grace` are produced by nothing: they remain uncovered.  The
`carryforward` argument is ignored by the source. -/

/-- The reference-value row filling the span between `a` and its
successor `b` (lines 732-736). -/
def gapRow (ref : Int) (a b : Row) : Row :=
  { pid := a.pid, start := a.stop + 1, stop := b.start - 1, value := ref,
    binary := 0, cat := ref, entry := a.entry, exit := a.exit }

/-- Collect the gap rows of a sorted frame (lines 718-736). -/
def gapsOf (ref grace : Int) : List Row → List Row
  | [] => []
  | [_] => []
  | a :: b :: t =>
      (if decide (a.pid = b.pid) && decide (b.start - a.stop - 1 > grace) then [gapRow ref a b]
       else []) ++ gapsOf ref grace (b :: t)

/-- The gap stage as driven by `tvexpose` lines 408-411: compute the gap
rows, and concatenate and re-sort only when some exist. -/
def gapStage (ref grace : Int) (l : List Row) : List Row :=
  if l.isEmpty then l
  else
    let s := sortRows l
    let gs := gapsOf ref grace s
    if gs.isEmpty then s else sortRows (s ++ gs)

/-! ### Baseline and post-exposure periods
(`_create_baseline_periods` lines 745-764,
`_create_postexposure_periods` lines 767-784) -/

/-- Minimum of a list of integers, `none` on the empty list. -/
def minInt : List Int → Option Int
  | [] => none
  | x :: xs =>
      match minInt xs with
      | none => some x
      | some m => some (min x m)

/-- Maximum of a list of integers, `none` on the empty list. -/
def maxInt : List Int → Option Int
  | [] => none
  | x :: xs =>
      match maxInt xs with
      | none => some x
      | some m => some (max x m)

/-- Baseline reference row for one subject: from `study_entry` to the
day before the earliest remaining start (whole window when the subject
has no remaining rows), kept only when nonempty. -/
def baselineRows (ref : Int) (m : Subj) (l : List Row) : List Row :=
  let e := match minInt (l.map Row.start) with
    | some v => v
    | none => m.exit + 1
  let b : Row := { pid := m.pid, start := m.entry, stop := e - 1, value := ref,
                   binary := 0, cat := ref, entry := m.entry, exit := m.exit }
  if decide (b.start ≤ b.stop) then [b] else []

/-- Post-exposure reference row for one subject: from the day after the
latest stop to `study_exit`, only for subjects that have rows and whose
latest stop is before `study_exit`. -/
def postRows (ref : Int) (m : Subj) (l : List Row) : List Row :=
  match maxInt (l.map Row.stop) with
  | none => []
  | some v =>
      if decide (v < m.exit) then
        [{ pid := m.pid, start := v + 1, stop := m.exit, value := ref,
           binary := 0, cat := ref, entry := m.entry, exit := m.exit }]
      else []

/-! ### Exposure classification (`_apply_currentformer` lines 824-852,
`_collapse_periods` lines 1012-1034) -/

/-- First exposure start of a subject: minimum `exp_start` over rows
with `orig_exp_binary == 1` (line 835). -/
def firstExp (l : List Row) : Option Int :=
  minInt ((l.filter (fun r => r.binary = 1)).map Row.start)

/-- The current/former value assignment of lines 839-849: 0 = never,
1 = currently exposed (overrides former), 2 = formerly exposed (not
currently exposed, at or after the first exposure start). -/
def cfAssign (fe : Option Int) (r : Row) : Row :=
  match fe with
  | none => { r with value := 0 }
  | some f =>
      if r.binary = 1 then { r with value := 1 }
      else if decide (r.start ≥ f) then { r with value := 2 }
      else { r with value := 0 }

/-- Fold one collapse group: the aggregation `start = min`, `stop = max`,
other columns first (lines 1018-1032).  A group breaks when the subject
or the classified value changes relative to the previous row. -/
def collapseGo (acc : Row) : List Row → List Row
  | [] => [acc]
  | r :: t =>
      if decide (r.pid = acc.pid) && decide (r.value = acc.value) then
        collapseGo { acc with start := min acc.start r.start, stop := max acc.stop r.stop } t
      else acc :: collapseGo r t

/-- The `_collapse_periods` helper (lines 1012-1034). -/
def collapsePeriods (l : List Row) : List Row :=
  match sortRows l with
  | [] => []
  | h :: t => collapseGo h t

/-- The `_apply_currentformer` helper (lines 824-852): compute the first
exposure start, assign 0/1/2, collapse consecutive equal values. -/
def applyCurrentformer (l : List Row) : List Row :=
  collapsePeriods (l.map (cfAssign (firstExp l)))

/-! ### The `tvexpose` pipeline -/

/-- Exposure-definition mode; only the default (raw time-varying values)
and `currentformer=True` are needed by the claims considered here. -/
inductive CMode where
  | timevarying
  | currentformer
deriving DecidableEq, Repr

/-- The `tvexpose` options exercised by the claims; all remaining
options keep their defaults (layer overlap strategy, no lag/washout/
window/pointtime, no bytype, no switching columns). -/
structure Config where
  reference : Int
  grace : Int
  mergeDays : Int
  mode : CMode
deriving DecidableEq, Repr

/-- The errors `tvexpose` can raise on the default path: the
`ValueError` of line 331 when the inner join of exposure records with
the master table is empty. -/
inductive TVError where
  | noMatchingRecords
deriving DecidableEq, Repr

/-- The exposure records of one subject (the subject's share of the
inner join of line 328). -/
def recsFor (m : Subj) (rs : List Rec) : List Rec :=
  rs.filter (fun r => decide (r.pid = m.pid))

/-- The classification stage selected by the configuration (lines
445-461): the default mode only renames `exp_value`, modelled as the
identity. -/
def classify (cfg : Config) (l : List Row) : List Row :=
  match cfg.mode with
  | .timevarying => l
  | .currentformer => applyCurrentformer l

/-- The sorted frame of one subject just before classification
(tvexpose lines 364-423): prepare, merge, resolve overlaps by layering,
fill gaps, add baseline and post-exposure rows, sort. -/
def allPeriods (cfg : Config) (m : Subj) (rs : List Rec) : List Row :=
  let p := prep cfg.reference m rs
  let m1 := mergePeriods cfg.mergeDays p
  let lz := layerLoop cfg.mergeDays 1000 m1
  let g := gapStage cfg.reference cfg.grace lz
  sortRows (g ++ baselineRows cfg.reference m g ++ postRows cfg.reference m g)

/-- The per-subject pipeline of `tvexpose` after the join: the sorted
frame of all periods, classified. -/
def perSubject (cfg : Config) (m : Subj) (rs : List Rec) : List Row :=
  classify cfg (allPeriods cfg m rs)

/-- The `tvexpose` function on the layer/default path (lines 275-461):
fails iff no exposure record matches any master subject (line 330),
otherwise returns the concatenation of the per-subject partitions.
Records whose subject is absent from the master table are silently
dropped by the inner join. -/
def tvexpose (cfg : Config) (master : List Subj) (recs : List Rec) :
    Except TVError (List Row) :=
  if (recs.filter (fun r => master.any (fun m => decide (m.pid = r.pid)))).isEmpty then
    .error .noMatchingRecords
  else
    .ok (master.flatMap (fun m => perSubject cfg m (recsFor m recs)))

/-! ## The `tvevent` function (`tvtools/tvevent.py`)

An interval row of the input partition carries `(id, start, stop)`; the
output additionally carries the event-flag column (`generate`, default
`_failure`).  An events row carries the primary date column and the
competing-risk date columns in their given order, each possibly missing. -/

/-- One input interval row of `tvevent`. -/
structure IvRow where
  pid : Int
  start : Int
  stop : Int
deriving DecidableEq, Repr

/-- One output row of `tvevent`: an interval plus the event flag. -/
structure FRow where
  pid : Int
  start : Int
  stop : Int
  flag : Int
deriving DecidableEq, Repr

/-- One events row: primary date plus the competing-risk dates in column
order; `none` is a missing date. -/
structure EvRow where
  pid : Int
  date : Option Int
  compete : List (Option Int)
deriving DecidableEq, Repr

/-- The competing-risk fold of tvevent.py lines 182-193: starting from
the primary date with type code 1, each competing column `i` (0-based)
takes over with type code `i + 2` whenever its date is present and
strictly earlier than the current effective date (or the current
effective date is missing). -/
def resolveGo (acc : Option (Int × Int)) (i : Nat) : List (Option Int) → Option (Int × Int)
  | [] => acc
  | c :: rest =>
      let acc2 :=
        match c, acc with
        | some v, none => some (v, (i : Int) + 2)
        | some v, some (d, t) => if v < d then some (v, (i : Int) + 2) else some (d, t)
        | none, a => a
      resolveGo acc2 (i + 1) rest

/-- Effective event (date, type code) of one events row, `none` when the
row has no usable date and is discarded (line 196). -/
def resolveEv (e : EvRow) : Option (Int × Int) :=
  resolveGo (e.date.map (fun d => (d, 1))) 0 e.compete

/-- Whether the effective event date `d` falls strictly inside an
interval (the `_is_internal` mask of lines 230-234). -/
def internalAt (d : Int) (iv : IvRow) : Bool :=
  decide (d > iv.start) && decide (d < iv.stop)

/-- The split stage of lines 238-267: internal intervals are replaced by
a pre-event segment ending at `d` and a post-event segment starting at
`d`; non-internal intervals pass unchanged.  The source keeps the
non-split rows, then appends all pre segments, then all post segments
(order is restored by the final sort). -/
def splitStage (ivs : List IvRow) (d : Int) : List IvRow :=
  ivs.filter (fun iv => !internalAt d iv)
    ++ (ivs.filter (internalAt d)).map (fun iv => { iv with stop := d })
    ++ (ivs.filter (internalAt d)).map (fun iv => { iv with start := d })

/-- The flag assignment of lines 289-293: the event type when the
interval's stop equals the effective event date, 0 otherwise. -/
def flagRow (d t : Int) (iv : IvRow) : FRow :=
  { pid := iv.pid, start := iv.start, stop := iv.stop,
    flag := if iv.stop = d then t else 0 }

/-- Event integration mode (the `type` option): terminal or recurring. -/
inductive EvMode where
  | single
  | recurring
deriving DecidableEq, Repr

/-- The final `sort_values([id, 'start', 'stop'])` key of line 331. -/
def frowLe (a b : FRow) : Bool :=
  decide (a.pid < b.pid) ||
    (decide (a.pid = b.pid) &&
      (decide (a.start < b.start) ||
        (decide (a.start = b.start) && decide (a.stop ≤ b.stop))))

/-- Minimum stop among flagged rows (the `first_events` frame of lines
310-311), `none` when the subject has no flagged row. -/
def minStopFlagged (l : List FRow) : Option Int :=
  minInt ((l.filter (fun r => decide (r.flag > 0))).map FRow.stop)

/-- The per-subject meaning of `tvevent` for one subject whose resolved
effective event is `ev` (`none` when the subject has no event row or its
row was discarded): split internal intervals, flag, censor after the
first event in single mode, sort. -/
def tveventSub (mode : EvMode) (ivs : List IvRow) (ev : Option (Int × Int)) : List FRow :=
  match ev with
  | none => sortBy frowLe (ivs.map (fun iv => { pid := iv.pid, start := iv.start, stop := iv.stop, flag := 0 }))
  | some (d, t) =>
      let fl := (splitStage ivs d).map (flagRow d t)
      let kept :=
        match mode with
        | .recurring => fl
        | .single =>
            match minStopFlagged fl with
            | none => fl
            | some fs => fl.filter (fun r => decide (r.stop ≤ fs))
      sortBy frowLe kept

/-- Resolved events table: one `(id, effective date, effective type)`
triple per events row that survives resolution (lines 182-196). -/
def resolvedEvents (evs : List EvRow) : List (Int × Int × Int) :=
  evs.filterMap (fun e => (resolveEv e).map (fun p => (e.pid, p.1, p.2)))

/-- The resolved event joined to a subject (the `left_on=id` merges of
lines 222-227 and 281-286, under one events row per subject). -/
def lookupEv (res : List (Int × Int × Int)) (p : Int) : Option (Int × Int) :=
  (res.find? (fun x => decide (x.1 = p))).map (fun x => (x.2.1, x.2.2))

/-- Subject ids of the intervals table in order of first appearance. -/
def pidsOf (ivs : List IvRow) : List Int :=
  (ivs.map IvRow.pid).eraseDups

/-- The `tvevent` function (tvevent.py lines 24-355) under its intended
usage of at most one events row per subject: each subject's intervals
are split at the subject's effective event date, flagged, censored after
the first event in single mode, and sorted. -/
def tvevent (mode : EvMode) (ivs : List IvRow) (evs : List EvRow) : List FRow :=
  (pidsOf ivs).flatMap (fun p =>
    tveventSub mode (ivs.filter (fun iv => decide (iv.pid = p))) (lookupEv (resolvedEvents evs) p))

/-! ## Specification predicates -/

/-- Adjacent rows never overlap: each stop is strictly before the next
start (rows in list order). -/
def DisjointSorted (l : List Row) : Prop :=
  List.Chain' (fun a b => a.stop < b.start) l

/-- Adjacent rows are exactly contiguous. -/
def Contiguous (l : List Row) : Prop :=
  List.Chain' (fun a b => b.start = a.stop + 1) l

/-- Total inclusive person-time of a list of rows. -/
def daysOf (l : List Row) : Int :=
  (l.map (fun r => r.stop - r.start + 1)).sum

/-- All rows belong to subject `m`. -/
def PidAll (m : Subj) (l : List Row) : Prop :=
  ∀ r ∈ l, r.pid = m.pid

/-- All rows are well-formed intervals inside `m`'s observation window. -/
def InWindow (m : Subj) (l : List Row) : Prop :=
  ∀ r ∈ l, m.entry ≤ r.start ∧ r.start ≤ r.stop ∧ r.stop ≤ m.exit

/-- One row belongs to subject `m` and is a well-formed interval inside
`m`'s observation window. -/
def RowOk (m : Subj) (r : Row) : Prop :=
  r.pid = m.pid ∧ m.entry ≤ r.start ∧ r.start ≤ r.stop ∧ r.stop ≤ m.exit

/-- The rows partition the inclusive day range `[lo, hi]` exactly, in
order: the first row starts at `lo`, each row starts the day after its
predecessor stops, and the last row stops at `hi` (an empty list covers
the empty range, `lo = hi + 1`). -/
def Covers (lo hi : Int) : List Row → Prop
  | [] => lo = hi + 1
  | r :: t => r.start = lo ∧ Covers (r.stop + 1) hi t

/-- The state of the `_merge_periods` loop body: sort, then one merge
pass (used to express stabilisation of the bounded loop). -/
def mergeStep (md : Int) (l : List Row) : List Row :=
  mergePass md (sortRows l)

/-- The break test of the `_merge_periods` loop: nothing can merge. -/
def mergeStable (md : Int) (l : List Row) : Bool :=
  !(anyCanMerge md (sortRows l))

/-- Whether the `_merge_periods` fixed-point iteration reaches its break
condition within the source's `max_iter = 1000` iterations. -/
def mergeStabilizes (md : Int) (l : List Row) : Bool :=
  (List.range 1000).any (fun k => mergeStable md ((mergeStep md)^[k] l))

/-- The expected gap-filled arrangement of a sorted frame: each row is
followed by its gap row when the uncovered span exceeds `grace`. -/
def weave (ref grace : Int) : List Row → List Row
  | [] => []
  | [a] => [a]
  | a :: b :: t =>
      a :: ((if decide (a.pid = b.pid) && decide (b.start - a.stop - 1 > grace) then
              [gapRow ref a b] else []) ++ weave ref grace (b :: t))

/-! ## Concrete families used by counterexamples and witnesses -/

/-- A same-value exposure row `[i, i + k]` of subject 1 inside the
window `[0, 2003]`. -/
def mkChainRow (i k : Int) : Row :=
  { pid := 1, start := i, stop := i + k, value := 7, binary := 1, cat := 7,
    entry := 0, exit := 2003 }

/-- The overlap chain: `n` rows `[a, a+k], [a+1, a+1+k], …`. -/
def chainL (a k : Int) : Nat → List Row
  | 0 => []
  | n + 1 => mkChainRow a k :: chainL (a + 1) k n

/-- The raw records producing the overlap chain: `n` records
`[a, a+1], [a+1, a+2], …` of subject 1, all with value 7. -/
def chainRecs (a : Int) : Nat → List Rec
  | 0 => []
  | n + 1 => ⟨1, a, a + 1, 7⟩ :: chainRecs (a + 1) n

/-! ## Generic facts about the sorting embedding -/

theorem insertLe_of_le (le : α → α → Bool) (x y : α) (ys : List α)
    (h : le x y = true) : insertLe le x (y :: ys) = x :: y :: ys := by
  simp [insertLe, h]

theorem insertLe_perm (le : α → α → Bool) (x : α) (l : List α) :
    List.Perm (insertLe le x l) (x :: l) := by
  induction l with
  | nil => simp [insertLe]
  | cons y ys ih =>
      simp only [insertLe]
      split
      · exact List.Perm.refl _
      · exact (ih.cons y).trans (List.Perm.swap x y ys)

theorem sortBy_perm (le : α → α → Bool) (l : List α) : List.Perm (sortBy le l) l := by
  induction l with
  | nil => exact List.Perm.refl _
  | cons x xs ih => exact (insertLe_perm le x (sortBy le xs)).trans (ih.cons x)

theorem insertLe_headEq (le : α → α → Bool) (x : α) (l : List α) :
    (insertLe le x l).head? = some x ∨ (insertLe le x l).head? = l.head? := by
  cases l with
  | nil => simp [insertLe]
  | cons y ys =>
      simp only [insertLe]
      split
      · exact Or.inl rfl
      · exact Or.inr rfl

theorem chain'_insertLe (le : α → α → Bool)
    (htot : ∀ a b, le a b = true ∨ le b a = true) (x : α) :
    ∀ l, List.Chain' (fun a b => le a b = true) l →
      List.Chain' (fun a b => le a b = true) (insertLe le x l) := by
  intro l
  induction l with
  | nil => intro _; simp [insertLe]
  | cons y ys ih =>
      intro h
      by_cases hxy : le x y = true
      · rw [insertLe_of_le le x y ys hxy]
        exact List.chain'_cons.mpr ⟨hxy, h⟩
      · have hyx : le y x = true := (htot x y).resolve_left hxy
        have h1 := (List.chain'_cons'.mp h).1
        have h2 := (List.chain'_cons'.mp h).2
        have hrec := ih h2
        simp only [insertLe, hxy, if_false]
        refine List.chain'_cons'.mpr ⟨fun z hz => ?_, hrec⟩
        rcases insertLe_headEq le x ys with he | he
        · rw [he] at hz
          simp at hz
          subst hz
          exact hyx
        · rw [he] at hz
          exact h1 z hz

theorem sortBy_chain' (le : α → α → Bool)
    (htot : ∀ a b, le a b = true ∨ le b a = true) (l : List α) :
    List.Chain' (fun a b => le a b = true) (sortBy le l) := by
  induction l with
  | nil => simp [sortBy]
  | cons x xs ih => exact chain'_insertLe le htot x _ ih

theorem sortBy_eq_self (le : α → α → Bool) :
    ∀ l, List.Chain' (fun a b => le a b = true) l → sortBy le l = l := by
  intro l
  induction l with
  | nil => intro _; rfl
  | cons x xs ih =>
      intro h
      have h2 : sortBy le xs = xs := ih (h.tail)
      simp only [sortBy, h2]
      cases xs with
      | nil => rfl
      | cons y ys => exact insertLe_of_le le x y ys (List.chain'_cons.mp h).1

theorem rowLe_total (a b : Row) : rowLe a b = true ∨ rowLe b a = true := by
  simp only [rowLe, Bool.or_eq_true, Bool.and_eq_true, decide_eq_true_eq]
  omega

theorem rowLe_trans {a b c : Row} (h1 : rowLe a b = true) (h2 : rowLe b c = true) :
    rowLe a c = true := by
  simp only [rowLe, Bool.or_eq_true, Bool.and_eq_true, decide_eq_true_eq] at h1 h2 ⊢
  omega

theorem frowLe_total (a b : FRow) : frowLe a b = true ∨ frowLe b a = true := by
  simp only [frowLe, Bool.or_eq_true, Bool.and_eq_true, decide_eq_true_eq]
  omega

/-! ## Behaviour of the bounded merge loop on the overlap chain

The rows `[a, a+k], [a+1, a+1+k], …` all share one value, and every
adjacent pair overlaps.  One `_merge_periods` iteration extends every
stop by one day and drops exactly the last row, so a chain of `n` rows
needs `n - 1` iterations: any chain longer than the `max_iter = 1000`
safety cap leaves the loop without having stabilised, and the loop then
returns the still-overlapping state with no error. -/

theorem chainL_succ (a k : Int) (n : Nat) :
    chainL a k (n + 1) = mkChainRow a k :: chainL (a + 1) k n := rfl

theorem chain_mem_start (a k : Int) :
    ∀ n, ∀ r ∈ chainL a k n, a ≤ r.start := by
  intro n
  induction n generalizing a with
  | zero => intro r hr; simp [chainL] at hr
  | succ m ih =>
      intro r hr
      rw [chainL_succ] at hr
      rcases List.mem_cons.mp hr with h | h
      · simp [h, mkChainRow]
      · have := ih (a + 1) r h
        omega

theorem chain_chain'_rowLe (a k : Int) :
    ∀ n, List.Chain' (fun x y => rowLe x y = true) (chainL a k n) := by
  intro n
  induction n generalizing a with
  | zero => simp [chainL]
  | succ m ih =>
      rw [chainL_succ]
      cases m with
      | zero => simp [chainL]
      | succ mm =>
          rw [chainL_succ]
          refine List.Chain'.cons ?_ ?_
          · simp only [rowLe, mkChainRow, Bool.or_eq_true, Bool.and_eq_true, decide_eq_true_eq,
              true_and, and_true]
            omega
          · have := ih (a + 1)
            rwa [chainL_succ] at this

theorem sortRows_chain (a k : Int) (n : Nat) : sortRows (chainL a k n) = chainL a k n :=
  sortBy_eq_self rowLe _ (chain_chain'_rowLe a k n)

theorem canMerge_chain (a k : Int) (hk : 1 ≤ k) :
    canMergePair 0 (mkChainRow a k) (mkChainRow (a + 1) k) = true := by
  simp only [canMergePair, mkChainRow, Bool.and_eq_true, decide_eq_true_eq, true_and, and_true]
  omega

theorem chain_update (a k : Int) (hk : 1 ≤ k) :
    ({ mkChainRow a k with stop := max (mkChainRow a k).stop (mkChainRow (a + 1) k).stop } : Row)
      = mkChainRow a (k + 1) := by
  simp only [mkChainRow]
  have h : max (a + k) (a + 1 + k) = a + (k + 1) := by omega
  simp only [h]

theorem updateStops_chain (a k : Int) (n : Nat) (hk : 1 ≤ k) :
    updateStops 0 (chainL a k (n + 2)) =
      (mkChainRow a (k + 1), true) :: updateStops 0 (chainL (a + 1) k (n + 1)) := by
  rw [chainL_succ, chainL_succ]
  show updateStops 0 (mkChainRow a k :: mkChainRow (a + 1) k :: chainL (a + 1 + 1) k n) = _
  rw [updateStops, canMerge_chain a k hk]
  simp only [if_true, chain_update a k hk]

theorem dropSub_chain (k : Int) (hk : 1 ≤ k) :
    ∀ n (a : Int), dropSubsumed (mkChainRow a (k + 1), true)
        (updateStops 0 (chainL (a + 1) k (n + 1))) = chainL (a + 1) (k + 1) n := by
  intro n
  induction n with
  | zero =>
      intro a
      show dropSubsumed _ (updateStops 0 (mkChainRow (a + 1) k :: chainL (a + 1 + 1) k 0)) = _
      rw [show chainL (a + 1 + 1) k 0 = [] from rfl]
      rw [updateStops]
      have hcond : (true && decide ((mkChainRow (a + 1) k).start ≥ (mkChainRow a (k + 1)).start) &&
          decide ((mkChainRow (a + 1) k).stop ≤ (mkChainRow a (k + 1)).stop)) = true := by
        simp only [mkChainRow, Bool.and_eq_true, decide_eq_true_eq, true_and, and_true]
        omega
      rw [dropSubsumed]
      simp only [hcond, if_true]
      rfl
  | succ m ih =>
      intro a
      rw [updateStops_chain (a + 1) k m hk]
      rw [dropSubsumed]
      have hcond : ((mkChainRow a (k + 1), true).2 &&
          decide ((mkChainRow (a + 1) (k + 1)).start ≥ (mkChainRow a (k + 1)).start) &&
          decide ((mkChainRow (a + 1) (k + 1)).stop ≤ (mkChainRow a (k + 1)).stop)) = false := by
        simp only [mkChainRow, Bool.and_eq_false_iff, decide_eq_false_iff_not]
        right
        omega
      rw [hcond]
      simp only [Bool.false_eq_true, if_false]
      rw [ih (a + 1), chainL_succ]

theorem mergePass_chain (a k : Int) (n : Nat) (hk : 1 ≤ k) :
    mergePass 0 (chainL a k (n + 2)) = chainL a (k + 1) (n + 1) := by
  unfold mergePass
  rw [updateStops_chain a k n hk]
  show mkChainRow a (k + 1) ::
      dropSubsumed (mkChainRow a (k + 1), true) (updateStops 0 (chainL (a + 1) k (n + 1))) = _
  rw [dropSub_chain k hk n a, chainL_succ]

theorem anyCanMerge_chain (a k : Int) (n : Nat) (hk : 1 ≤ k) :
    anyCanMerge 0 (chainL a k (n + 2)) = true := by
  rw [chainL_succ, chainL_succ]
  show anyCanMerge 0 (mkChainRow a k :: mkChainRow (a + 1) k :: chainL (a + 1 + 1) k n) = true
  rw [anyCanMerge, canMerge_chain a k hk]
  rfl

theorem mergeStep_chain (a k : Int) (n : Nat) (hk : 1 ≤ k) :
    mergeStep 0 (chainL a k (n + 2)) = chainL a (k + 1) (n + 1) := by
  rw [mergeStep, sortRows_chain, mergePass_chain a k n hk]

theorem mergeStable_chain (a k : Int) (n : Nat) (hk : 1 ≤ k) :
    mergeStable 0 (chainL a k (n + 2)) = false := by
  rw [mergeStable, sortRows_chain, anyCanMerge_chain a k n hk]
  rfl

theorem mergeLoop_chain (k : Int) (hk : 1 ≤ k) :
    ∀ f n (a : Int), mergeLoop 0 f (chainL a k (f + n + 2)) = chainL a (k + f) (n + 2) := by
  intro f
  induction f generalizing k with
  | zero => intro n a; simp [mergeLoop]
  | succ g ih =>
      intro n a
      rw [mergeLoop]
      simp only [sortRows_chain]
      rw [show g + 1 + n + 2 = (g + n + 1) + 2 from by omega]
      rw [anyCanMerge_chain a k (g + n + 1) hk]
      simp only [if_true]
      rw [mergePass_chain a k (g + n + 1) hk]
      rw [show g + n + 1 + 1 = g + n + 2 from by omega]
      have := ih (k + 1) (by omega) n a
      rw [this]
      congr 1
      push_cast
      ring

theorem mergeStep_iter_chain (k : Int) (hk : 1 ≤ k) :
    ∀ j n : Nat, (mergeStep 0)^[j] (chainL 0 k (j + n + 2)) = chainL 0 (k + j) (n + 2) := by
  intro j
  induction j generalizing k with
  | zero => intro n; simp
  | succ g ih =>
      intro n
      rw [Function.iterate_succ_apply]
      rw [show g + 1 + n + 2 = (g + n + 1) + 2 from by omega]
      rw [mergeStep_chain 0 k (g + n + 1) hk]
      rw [show g + n + 1 + 1 = g + n + 2 from by omega]
      have := ih (k + 1) (by omega) n
      rw [this]
      congr 1
      push_cast
      ring

theorem chain_not_stabilizes : mergeStabilizes 0 (chainL 0 1 1002) = false := by
  rw [mergeStabilizes]
  rw [List.any_eq_false]
  intro k hk
  rw [List.mem_range] at hk
  have h2 : (1002 : Nat) = k + ((999 - k) + 1) + 2 := by omega
  rw [h2]
  rw [mergeStep_iter_chain 1 le_rfl k ((999 - k) + 1)]
  rw [mergeStable_chain 0 (1 + (k : Int)) ((999 - k) + 1) (by omega)]
  exact Bool.false_ne_true

theorem mergeLoop_of_unstable (md : Int) :
    ∀ (f : Nat) (l : List Row),
      (∀ k < f, mergeStable md ((mergeStep md)^[k] l) = false) →
      mergeLoop md f l = (mergeStep md)^[f] l := by
  intro f
  induction f with
  | zero => intro l _; rfl
  | succ g ih =>
      intro l h
      have h0 : mergeStable md l = false := by
        have := h 0 (Nat.succ_pos g)
        simpa using this
      have hany : anyCanMerge md (sortRows l) = true := by
        rw [mergeStable] at h0
        simpa using h0
      rw [mergeLoop]
      simp only [hany, if_true]
      have hrec := ih (mergeStep md l) (fun k hk => by
        have := h (k + 1) (by omega)
        rwa [Function.iterate_succ_apply] at this)
      rw [show mergePass md (sortRows l) = mergeStep md l from rfl]
      rw [hrec, Function.iterate_succ_apply]

/-! ### Deduplication is the identity on frames with pairwise-distinct keys -/

theorem dedupRows_of_distinct :
    ∀ (l : List Row) (seen : List (Int × Int × Int × Int)),
      (∀ r ∈ l, rowKey r ∉ seen) →
      List.Pairwise (fun r s => rowKey r ≠ rowKey s) l →
      dedupRows seen l = l := by
  intro l
  induction l with
  | nil => intro seen _ _; rfl
  | cons r t ih =>
      intro seen hseen hpw
      rw [dedupRows]
      have hnot : seen.contains (rowKey r) = false := by
        simpa using hseen r (List.mem_cons_self r t)
      rw [hnot]
      simp only [Bool.false_eq_true, if_false]
      congr 1
      refine ih (rowKey r :: seen) ?_ (List.Pairwise.sublist (List.sublist_cons_self r t) hpw)
      intro s hs
      rw [List.mem_cons]
      push_neg
      refine ⟨?_, hseen s (List.mem_cons_of_mem r hs)⟩
      have := (List.pairwise_cons.mp hpw).1 s hs
      exact fun hc => this hc.symm

theorem rowKey_start {r s : Row} (h : rowKey r = rowKey s) : r.start = s.start := by
  simpa [rowKey] using congrArg (fun p => p.2.1) h

theorem chain_pairwise_keys (k : Int) :
    ∀ (n : Nat) (a : Int), List.Pairwise (fun r s => rowKey r ≠ rowKey s) (chainL a k n) := by
  intro n
  induction n with
  | zero => intro a; simp [chainL]
  | succ m ih =>
      intro a
      rw [chainL_succ]
      refine List.pairwise_cons.mpr ⟨fun s hs => ?_, ih (a + 1)⟩
      have h1 := chain_mem_start (a + 1) k m s hs
      intro hc
      have h2 := rowKey_start hc
      simp only [mkChainRow] at h2
      omega

theorem chain_isEmpty_false (a k : Int) (n : Nat) (hn : n ≠ 0) :
    (chainL a k n).isEmpty = false := by
  cases n with
  | zero => exact absurd rfl hn
  | succ m => rw [chainL_succ]; rfl

theorem chain_ne_nil (a k : Int) (n : Nat) (hn : n ≠ 0) : chainL a k n ≠ [] := by
  cases n with
  | zero => exact absurd rfl hn
  | succ m => rw [chainL_succ]; exact List.cons_ne_nil _ _

theorem mergePeriods_chain_cap :
    mergePeriods 0 (chainL 0 1 1002) = chainL 0 1001 2 := by
  rw [mergePeriods, chain_isEmpty_false 0 1 1002 (by norm_num)]
  simp only [Bool.false_eq_true, if_false]
  have h1 : mergeLoop 0 1000 (chainL 0 1 1002) = chainL 0 1001 2 := by
    have := mergeLoop_chain 1 le_rfl 1000 0 0
    rw [show (1000 + 0 + 2 : Nat) = 1002 from by norm_num] at this
    rw [this]
    norm_num
  rw [h1]
  exact dedupRows_of_distinct _ [] (by simp) (chain_pairwise_keys 1001 2 0)

/-- C7, counterexample.  On the 1002-row same-value overlap chain the
`_merge_periods` fixed-point iteration does not reach its break
condition within the `max_iter = 1000` safety cap, yet the invocation
does not fail with any `ConvergenceError`: it returns the state reached
after 1000 iterations, which still contains a mergeable (overlapping)
adjacent pair.  No `ConvergenceError` exists anywhere in the
implementation. -/
theorem merge_c7_counterexample :
    mergeStabilizes 0 (chainL 0 1 1002) = false ∧
    mergePeriods 0 (chainL 0 1 1002) = chainL 0 1001 2 ∧
    anyCanMerge 0 (chainL 0 1001 2) = true :=
  ⟨chain_not_stabilizes, mergePeriods_chain_cap, anyCanMerge_chain 0 1001 0 (by norm_num)⟩

/-- C7, amended.  When the fixed-point iteration of `_merge_periods`
fails to stabilise within the 1000-iteration safety cap, no error is
raised: the function silently returns the (deduplicated) state reached
after exactly 1000 sort-and-merge iterations, even though that state may
still contain mergeable pairs. -/
theorem merge_c7_amended (md : Int) (l : List Row)
    (h : mergeStabilizes md l = false) (hne : l ≠ []) :
    mergePeriods md l = dedupRows [] ((mergeStep md)^[1000] l) := by
  rw [mergePeriods]
  have he : l.isEmpty = false := by
    cases l with
    | nil => exact absurd rfl hne
    | cons x t => rfl
  rw [he]
  simp only [Bool.false_eq_true, if_false]
  have h2 : mergeLoop md 1000 l = (mergeStep md)^[1000] l := by
    apply mergeLoop_of_unstable
    intro k hk
    rw [mergeStabilizes, List.any_eq_false] at h
    have := h k (List.mem_range.mpr hk)
    simpa using this
  rw [h2]

/-- Witness for `merge_c7_amended` at the 1002-row overlap chain. -/
theorem merge_c7_amended_witness :
    mergeStabilizes 0 (chainL 0 1 1002) = false ∧
    chainL 0 1 1002 ≠ [] ∧
    mergePeriods 0 (chainL 0 1 1002) = dedupRows [] ((mergeStep 0)^[1000] (chainL 0 1 1002)) :=
  ⟨chain_not_stabilizes, chain_ne_nil 0 1 1002 (by norm_num),
    merge_c7_amended 0 _ chain_not_stabilizes (chain_ne_nil 0 1 1002 (by norm_num))⟩

/-! ## The full default pipeline on the overlap chain -/

theorem chainRecs_succ (a : Int) (n : Nat) :
    chainRecs a (n + 1) = (⟨1, a, a + 1, 7⟩ : Rec) :: chainRecs (a + 1) n := rfl

theorem chainRecs_pid (a : Int) :
    ∀ n, ∀ r ∈ chainRecs a n, r.pid = 1 := by
  intro n
  induction n generalizing a with
  | zero => intro r hr; simp [chainRecs] at hr
  | succ m ih =>
      intro r hr
      rw [chainRecs_succ] at hr
      rcases List.mem_cons.mp hr with h | h
      · rw [h]
      · exact ih (a + 1) r h

theorem chainRecs_ne_nil (a : Int) (n : Nat) (hn : n ≠ 0) : chainRecs a n ≠ [] := by
  cases n with
  | zero => exact absurd rfl hn
  | succ m => rw [chainRecs_succ]; exact List.cons_ne_nil _ _

theorem prep_chain : ∀ (n : Nat) (a : Int), 0 ≤ a → a + n ≤ 2003 →
    prep 0 ⟨1, 0, 2003⟩ (chainRecs a n) = chainL a 1 n := by
  have core : ∀ (n : Nat) (a : Int), 0 ≤ a → a + n ≤ 2003 →
      (((chainRecs a n).map (clipRec ⟨1, 0, 2003⟩)).filter (validRec ⟨1, 0, 2003⟩)).map
        (recToRow 0 ⟨1, 0, 2003⟩) = chainL a 1 n := by
    intro n
    induction n with
    | zero => intro a _ _; rfl
    | succ m ih =>
        intro a ha hb
        rw [chainRecs_succ, List.map_cons]
        have hclip : clipRec ⟨1, 0, 2003⟩ (⟨1, a, a + 1, 7⟩ : Rec) = ⟨1, a, a + 1, 7⟩ := by
          simp only [clipRec]
          congr 1
          · omega
          · push_cast at hb; omega
        rw [hclip]
        rw [List.filter_cons_of_pos (by
          simp only [validRec, Bool.and_eq_true, decide_eq_true_eq, true_and, and_true]
          constructor
          · constructor
            · omega
            · push_cast at hb; omega
          · omega)]
        rw [List.map_cons]
        have hrow : recToRow 0 ⟨1, 0, 2003⟩ (⟨1, a, a + 1, 7⟩ : Rec) = mkChainRow a 1 := by
          simp [recToRow, mkChainRow]
        rw [hrow, chainL_succ]
        congr 1
        exact ih (a + 1) (by omega) (by push_cast at hb ⊢; omega)
  intro n a ha hb
  rw [prep, core n a ha hb, sortRows_chain]

theorem chain_mem_value (k : Int) :
    ∀ (n : Nat) (a : Int), ∀ r ∈ chainL a k n, r.value = 7 := by
  intro n
  induction n with
  | zero => intro a r hr; simp [chainL] at hr
  | succ m ih =>
      intro a r hr
      rw [chainL_succ] at hr
      rcases List.mem_cons.mp hr with h | h
      · rw [h]; rfl
      · exact ih (a + 1) r h

theorem chain_mem_wf (k : Int) (hk : 0 ≤ k) :
    ∀ (n : Nat) (a : Int), ∀ r ∈ chainL a k n, r.start ≤ r.stop := by
  intro n
  induction n with
  | zero => intro a r hr; simp [chainL] at hr
  | succ m ih =>
      intro a r hr
      rw [chainL_succ] at hr
      rcases List.mem_cons.mp hr with h | h
      · rw [h]; simp only [mkChainRow]; omega
      · exact ih (a + 1) r h

theorem layerWalk_const (v : Int) :
    ∀ l : List Row, (∀ r ∈ l, r.value = v) → (∀ r ∈ l, r.start ≤ r.stop) →
      layerWalk l = (l, []) := by
  intro l
  induction l with
  | nil => intro _ _; rfl
  | cons a t ih =>
      intro hv hw
      cases t with
      | nil => rfl
      | cons b u =>
          rw [layerWalk]
          have hov : overlapsNext a b = false := by
            have ha := hv a (List.mem_cons_self _ _)
            have hb := hv b (List.mem_cons_of_mem a (List.mem_cons_self _ _))
            simp only [overlapsNext, Bool.and_eq_false_iff, decide_eq_false_iff_not]
            right
            omega
          have hrest := ih (fun r hr => hv r (List.mem_cons_of_mem a hr))
            (fun r hr => hw r (List.mem_cons_of_mem a hr))
          rw [hrest, hov]
          simp only [Bool.false_and, Bool.false_eq_true, if_false, List.filter_nil,
            List.nil_append]
          rw [if_pos (by
            simpa using hw a (List.mem_cons_self _ _))]

theorem hasRemaining_const (v : Int) :
    ∀ l : List Row, (∀ r ∈ l, r.value = v) → hasRemaining l = false := by
  intro l
  induction l with
  | nil => intro _; rfl
  | cons a t ih =>
      intro hv
      cases t with
      | nil => rfl
      | cons b u =>
          rw [hasRemaining]
          have hov : overlapsNext a b = false := by
            have ha := hv a (List.mem_cons_self _ _)
            have hb := hv b (List.mem_cons_of_mem a (List.mem_cons_self _ _))
            simp only [overlapsNext, Bool.and_eq_false_iff, decide_eq_false_iff_not]
            right
            omega
          rw [hov, Bool.false_or]
          exact ih (fun r hr => hv r (List.mem_cons_of_mem a hr))

theorem layerResolve_chain (a k : Int) (n : Nat) (hk : 0 ≤ k) :
    layerResolve (chainL a k n) = chainL a k n := by
  rw [layerResolve, sortRows_chain]
  rw [layerWalk_const 7 _ (chain_mem_value k n a) (chain_mem_wf k hk n a)]
  rfl

theorem mergePeriods_chain_big :
    mergePeriods 0 (chainL 0 1 2003) = chainL 0 1001 1003 := by
  rw [mergePeriods, chain_isEmpty_false 0 1 2003 (by norm_num)]
  simp only [Bool.false_eq_true, if_false]
  have h1 : mergeLoop 0 1000 (chainL 0 1 2003) = chainL 0 1001 1003 := by
    have := mergeLoop_chain 1 le_rfl 1000 1001 0
    rw [show (1000 + 1001 + 2 : Nat) = 2003 from by norm_num] at this
    rw [this]
    norm_num
  rw [h1]
  exact dedupRows_of_distinct _ [] (by simp) (chain_pairwise_keys 1001 1003 0)

theorem mergePeriods_chain_mid :
    mergePeriods 0 (chainL 0 1001 1003) = chainL 0 2001 3 := by
  rw [mergePeriods, chain_isEmpty_false 0 1001 1003 (by norm_num)]
  simp only [Bool.false_eq_true, if_false]
  have h1 : mergeLoop 0 1000 (chainL 0 1001 1003) = chainL 0 2001 3 := by
    have := mergeLoop_chain 1001 (by norm_num) 1000 1 0
    rw [show (1000 + 1 + 2 : Nat) = 1003 from by norm_num] at this
    rw [this]
    norm_num
  rw [h1]
  exact dedupRows_of_distinct _ [] (by simp) (chain_pairwise_keys 2001 3 0)

theorem layerLoop_chain :
    layerLoop 0 1000 (chainL 0 1001 1003) = chainL 0 2001 3 := by
  rw [show (1000 : Nat) = 999 + 1 from rfl, layerLoop]
  rw [layerResolve_chain 0 1001 1003 (by norm_num), mergePeriods_chain_mid, sortRows_chain]
  rw [hasRemaining_const 7 _ (chain_mem_value 2001 3 0)]
  rfl

theorem perSubject_chain :
    perSubject ⟨0, 0, 0, .timevarying⟩ ⟨1, 0, 2003⟩ (chainRecs 0 2003) = chainL 0 2001 3 := by
  rw [perSubject]
  rw [show (∀ x, classify ⟨0, 0, 0, .timevarying⟩ x = x) from fun _ => rfl]
  rw [allPeriods]
  rw [show ((⟨0, 0, 0, .timevarying⟩ : Config).reference) = 0 from rfl]
  rw [show ((⟨0, 0, 0, .timevarying⟩ : Config).mergeDays) = 0 from rfl]
  rw [show ((⟨0, 0, 0, .timevarying⟩ : Config).grace) = 0 from rfl]
  rw [prep_chain 2003 0 le_rfl (by norm_num)]
  rw [mergePeriods_chain_big, layerLoop_chain]
  decide

theorem recsFor_chain :
    recsFor ⟨1, 0, 2003⟩ (chainRecs 0 2003) = chainRecs 0 2003 := by
  rw [recsFor]
  rw [List.filter_eq_self.mpr]
  intro r hr
  simp only [decide_eq_true_eq]
  rw [chainRecs_pid 0 2003 r hr]

theorem chainRecs_isEmpty_false (a : Int) (n : Nat) (hn : n ≠ 0) :
    (chainRecs a n).isEmpty = false := by
  cases n with
  | zero => exact absurd rfl hn
  | succ m => rw [chainRecs_succ]; rfl

theorem tvexpose_chain :
    tvexpose ⟨0, 0, 0, .timevarying⟩ [⟨1, 0, 2003⟩] (chainRecs 0 2003) =
      .ok (chainL 0 2001 3) := by
  rw [tvexpose]
  have hfilter : (chainRecs 0 2003).filter
      (fun r => [(⟨1, 0, 2003⟩ : Subj)].any (fun m => decide (m.pid = r.pid))) =
        chainRecs 0 2003 := by
    rw [List.filter_eq_self.mpr]
    intro r hr
    simp only [List.any_cons, List.any_nil, Bool.or_false, decide_eq_true_eq]
    rw [chainRecs_pid 0 2003 r hr]
  rw [hfilter, chainRecs_isEmpty_false 0 2003 (by norm_num)]
  simp only [Bool.false_eq_true, if_false]
  rw [List.flatMap_cons, List.flatMap_nil, List.append_nil]
  rw [recsFor_chain, perSubject_chain]

/-- C1, counterexample.  The input consisting of subject 1 with window
`[0, 2003]` (so `entry ≤ exit`) and 2003 same-value one-day-overlapping
records `[i, i+1]` is accepted by `tvexpose` under the default
configuration, but the bounded merge loops hit their 1000-iteration
safety caps before stabilising, so three mutually overlapping rows reach
the output: the subject's rows (already sorted by start) are not
pairwise non-overlapping, and their inclusive day-counts sum to 6006,
not `exit - entry + 1 = 2004`. -/
theorem tvexpose_c1_counterexample :
    tvexpose ⟨0, 0, 0, .timevarying⟩ [⟨1, 0, 2003⟩] (chainRecs 0 2003) =
      .ok (chainL 0 2001 3) ∧
    (chainL 0 2001 3).filter (fun r => decide (r.pid = 1)) = chainL 0 2001 3 ∧
    ¬ DisjointSorted (chainL 0 2001 3) ∧
    daysOf (chainL 0 2001 3) = 6006 ∧ (6006 : Int) ≠ 2003 - 0 + 1 := by
  refine ⟨tvexpose_chain, by decide, ?_, by decide, by decide⟩
  rw [DisjointSorted]
  rw [show chainL 0 2001 3 = [mkChainRow 0 2001, mkChainRow 1 2001, mkChainRow 2 2001] from rfl]
  intro h
  have h1 := (List.chain'_cons.mp h).1
  simp only [mkChainRow] at h1
  omega

/-- C3.  One subject with window `[0, 100]` and two value-5 records
`[10, 20]` and `[36, 50]` separated by a 15-day uncovered gap
(days 21-35).  With `grace = 15` the code does NOT bridge the gap into
one interval: the two records stay separate and no row at all covers
days 21-35 (the span is within grace, so `_create_gap_periods` skips it,
and nothing else merges or fills it — person-time is lost).  With
`grace = 14` the gap is filled with a reference-value row (not bridged
either).  The claim's `grace = 15` half — a single value-5 interval
`[10, 50]` — never appears. -/
theorem tvexpose_c3_behavior :
    tvexpose ⟨0, 15, 0, .timevarying⟩ [⟨1, 0, 100⟩] [⟨1, 10, 20, 5⟩, ⟨1, 36, 50, 5⟩] =
      .ok [⟨1, 0, 9, 0, 0, 0, 0, 100⟩, ⟨1, 10, 20, 5, 1, 5, 0, 100⟩,
           ⟨1, 36, 50, 5, 1, 5, 0, 100⟩, ⟨1, 51, 100, 0, 0, 0, 0, 100⟩] ∧
    (∀ r ∈ [(⟨1, 0, 9, 0, 0, 0, 0, 100⟩ : Row), ⟨1, 10, 20, 5, 1, 5, 0, 100⟩,
           ⟨1, 36, 50, 5, 1, 5, 0, 100⟩, ⟨1, 51, 100, 0, 0, 0, 0, 100⟩],
        ¬ (r.start = 10 ∧ r.stop = 50) ∧ ¬ (r.start ≤ 25 ∧ 25 ≤ r.stop)) ∧
    daysOf [⟨1, 0, 9, 0, 0, 0, 0, 100⟩, ⟨1, 10, 20, 5, 1, 5, 0, 100⟩,
           ⟨1, 36, 50, 5, 1, 5, 0, 100⟩, ⟨1, 51, 100, 0, 0, 0, 0, 100⟩] = 86 ∧
    tvexpose ⟨0, 14, 0, .timevarying⟩ [⟨1, 0, 100⟩] [⟨1, 10, 20, 5⟩, ⟨1, 36, 50, 5⟩] =
      .ok [⟨1, 0, 9, 0, 0, 0, 0, 100⟩, ⟨1, 10, 20, 5, 1, 5, 0, 100⟩,
           ⟨1, 21, 35, 0, 0, 0, 0, 100⟩, ⟨1, 36, 50, 5, 1, 5, 0, 100⟩,
           ⟨1, 51, 100, 0, 0, 0, 0, 100⟩] := by
  exact ⟨rfl, by decide, by decide, rfl⟩

/-- C6.  The split overlap strategy is an admitted stub:
`_resolve_overlaps_split` returns its input frame unchanged for every
input, so on two overlapping different-value intervals of one subject
the stage's output equals (not differs from) its input. -/
theorem resolveOverlapsSplit_c6_stub :
    (∀ l : List Row, resolveOverlapsSplit l = l) ∧
    resolveOverlapsSplit [⟨1, 0, 10, 1, 1, 1, 0, 20⟩, ⟨1, 5, 15, 2, 1, 2, 0, 20⟩] =
      [⟨1, 0, 10, 1, 1, 1, 0, 20⟩, ⟨1, 5, 15, 2, 1, 2, 0, 20⟩] :=
  ⟨fun _ => rfl, rfl⟩

/-- C8, counterexample.  With master table `[subject 1]` and two
exposure records, one for subject 1 and one for the unknown subject 2,
`tvexpose` does not fail at all: the inner join silently drops the
unmatched record and the call returns a normal partition containing only
subject 1. -/
theorem tvexpose_c8_counterexample :
    tvexpose ⟨0, 0, 0, .timevarying⟩ [⟨1, 0, 10⟩] [⟨1, 2, 3, 5⟩, ⟨2, 2, 3, 5⟩] =
      .ok [⟨1, 0, 1, 0, 0, 0, 0, 10⟩, ⟨1, 2, 3, 5, 1, 5, 0, 10⟩, ⟨1, 4, 10, 0, 0, 0, 0, 10⟩] ∧
    (∀ r ∈ [(⟨1, 0, 1, 0, 0, 0, 0, 10⟩ : Row), ⟨1, 2, 3, 5, 1, 5, 0, 10⟩,
        ⟨1, 4, 10, 0, 0, 0, 0, 10⟩], r.pid ≠ 2) :=
  ⟨rfl, by decide⟩

/-- C8, amended.  `tvexpose` raises an error for unmatched subjects only
in the all-or-nothing sense: the call fails (with the `ValueError` of
line 331; no `SchemaError` and no best-effort flag exist) precisely when
NO exposure record matches any master subject; otherwise records
referencing unknown subjects are silently dropped by the inner join and
the call succeeds. -/
theorem tvexpose_c8_amended (cfg : Config) (master : List Subj) (recs : List Rec) :
    (∃ e, tvexpose cfg master recs = .error e) ↔
      recs.filter (fun r => master.any (fun m => decide (m.pid = r.pid))) = [] := by
  rw [tvexpose]
  by_cases h : (recs.filter (fun r => master.any (fun m => decide (m.pid = r.pid)))).isEmpty
  · rw [if_pos h]
    simp only [List.isEmpty_iff] at h
    exact ⟨fun _ => h, fun _ => ⟨.noMatchingRecords, rfl⟩⟩
  · rw [if_neg h]
    simp only [List.isEmpty_iff] at h
    constructor
    · rintro ⟨e, he⟩
      exact absurd he (by simp)
    · intro hc
      exact absurd hc h

/-- C5, counterexample.  A subject re-exposed after a gap: records
`[5, 10]` and `[20, 25]` of the same non-reference value inside window
`[0, 30]`.  Under `currentformer=True` the reference-filled gap row
`[11, 19]` is classified 2 (formerly exposed) and the later re-exposure
row `[20, 25]` is classified 1 (currently exposed), a 2-to-1 transition
in start order. -/
theorem tvexpose_c5_counterexample :
    tvexpose ⟨0, 0, 0, .currentformer⟩ [⟨1, 0, 30⟩] [⟨1, 5, 10, 7⟩, ⟨1, 20, 25, 7⟩] =
      .ok [⟨1, 0, 4, 0, 0, 0, 0, 30⟩, ⟨1, 5, 10, 1, 1, 7, 0, 30⟩, ⟨1, 11, 19, 2, 0, 0, 0, 30⟩,
           ⟨1, 20, 25, 1, 1, 7, 0, 30⟩, ⟨1, 26, 30, 2, 0, 0, 0, 30⟩] ∧
    (∃ i j : Fin 5, (i : Nat) < (j : Nat) ∧
      (([⟨1, 0, 4, 0, 0, 0, 0, 30⟩, ⟨1, 5, 10, 1, 1, 7, 0, 30⟩, ⟨1, 11, 19, 2, 0, 0, 0, 30⟩,
         ⟨1, 20, 25, 1, 1, 7, 0, 30⟩, ⟨1, 26, 30, 2, 0, 0, 0, 30⟩] : List Row).get
            ⟨i, i.isLt⟩).value = 2 ∧
      (([⟨1, 0, 4, 0, 0, 0, 0, 30⟩, ⟨1, 5, 10, 1, 1, 7, 0, 30⟩, ⟨1, 11, 19, 2, 0, 0, 0, 30⟩,
         ⟨1, 20, 25, 1, 1, 7, 0, 30⟩, ⟨1, 26, 30, 2, 0, 0, 0, 30⟩] : List Row).get
            ⟨j, j.isLt⟩).value = 1) :=
  ⟨rfl, ⟨2, 3, by decide, rfl, rfl⟩⟩

/-! ## Properties of exact coverage -/

theorem covers_append {lo mid hi : Int} :
    ∀ {l₁ l₂ : List Row}, Covers lo mid l₁ → Covers (mid + 1) hi l₂ →
      Covers lo hi (l₁ ++ l₂) := by
  intro l₁
  induction l₁ generalizing lo with
  | nil =>
      intro l₂ h1 h2
      rw [Covers] at h1
      rw [List.nil_append, h1]
      exact h2
  | cons r t ih =>
      intro l₂ h1 h2
      rw [Covers] at h1
      rw [List.cons_append, Covers]
      exact ⟨h1.1, ih h1.2 h2⟩

theorem covers_daysOf {lo hi : Int} :
    ∀ {l : List Row}, Covers lo hi l → daysOf l = hi - lo + 1 := by
  intro l
  induction l generalizing lo with
  | nil =>
      intro h
      rw [Covers] at h
      rw [daysOf]
      simp [h]
  | cons r t ih =>
      intro h
      rw [Covers] at h
      have ht := ih h.2
      rw [daysOf] at ht ⊢
      rw [List.map_cons, List.sum_cons, ht, h.1]
      ring

theorem covers_disjoint {lo hi : Int} :
    ∀ {l : List Row}, Covers lo hi l → DisjointSorted l := by
  intro l
  induction l generalizing lo with
  | nil => intro _; exact List.chain'_nil
  | cons r t ih =>
      intro h
      rw [Covers] at h
      rw [DisjointSorted]
      refine List.chain'_cons'.mpr ⟨?_, ih h.2⟩
      intro z hz
      cases t with
      | nil => simp at hz
      | cons s u =>
          simp only [List.head?_cons, Option.mem_def, Option.some.injEq] at hz
          subst hz
          rw [Covers] at h
          omega

theorem covers_mem_bounds (m : Subj) {lo hi : Int} :
    ∀ {l : List Row}, Covers lo hi l → (∀ r ∈ l, RowOk m r) →
      ∀ r ∈ l, lo ≤ r.start ∧ r.stop ≤ hi := by
  intro l
  induction l generalizing lo with
  | nil => intro _ _ r hr; simp at hr
  | cons a t ih =>
      intro h hwf r hr
      rw [Covers] at h
      have hstep := ih h.2 (fun x hx => hwf x (List.mem_cons_of_mem a hx))
      have hle : a.stop + 1 ≤ hi + 1 := by
        cases t with
        | nil => rw [Covers] at h; omega
        | cons s u =>
            have hs := hstep s (List.mem_cons_self s u)
            have hwfs := hwf s (List.mem_cons_of_mem a (List.mem_cons_self s u))
            rw [Covers] at h
            rcases hwfs with ⟨_, _, h3, _⟩
            omega
      rcases List.mem_cons.mp hr with he | he
      · subst he
        exact ⟨le_of_eq h.1.symm, by omega⟩
      · have := hstep r he
        have hwa := hwf a (List.mem_cons_self a t)
        rcases hwa with ⟨_, _, h3, _⟩
        constructor
        · omega
        · exact this.2

theorem minInt_mem : ∀ (l : List Int) (v : Int), minInt l = some v → v ∈ l := by
  intro l
  induction l with
  | nil => intro v h; rw [minInt] at h; cases h
  | cons x xs ih =>
      intro v h
      rw [minInt] at h
      cases hm : minInt xs with
      | none =>
          rw [hm] at h
          cases h
          exact List.mem_cons_self _ _
      | some m =>
          rw [hm] at h
          cases h
          rcases min_cases x m with ⟨he, _⟩ | ⟨he, _⟩
          · rw [he]; exact List.mem_cons_self _ _
          · rw [he]; exact List.mem_cons_of_mem x (ih m hm)

theorem minInt_head (x : Int) (xs : List Int) (h : ∀ y ∈ xs, x ≤ y) :
    minInt (x :: xs) = some x := by
  rw [minInt]
  cases hm : minInt xs with
  | none => rfl
  | some m =>
      have hx : x ≤ m := h m (minInt_mem xs m hm)
      show some (min x m) = some x
      rw [min_eq_left hx]

theorem maxInt_mem : ∀ (l : List Int) (v : Int), maxInt l = some v → v ∈ l := by
  intro l
  induction l with
  | nil => intro v h; rw [maxInt] at h; cases h
  | cons x xs ih =>
      intro v h
      rw [maxInt] at h
      cases hm : maxInt xs with
      | none =>
          rw [hm] at h
          cases h
          exact List.mem_cons_self _ _
      | some m =>
          rw [hm] at h
          cases h
          rcases max_cases x m with ⟨he, _⟩ | ⟨he, _⟩
          · rw [he]; exact List.mem_cons_self _ _
          · rw [he]; exact List.mem_cons_of_mem x (ih m hm)

theorem maxInt_isSome (x : Int) (xs : List Int) : ∃ v, maxInt (x :: xs) = some v := by
  rw [maxInt]
  cases maxInt xs with
  | none => exact ⟨x, rfl⟩
  | some m => exact ⟨max x m, rfl⟩

theorem maxInt_eq (v : Int) :
    ∀ l : List Int, v ∈ l → (∀ y ∈ l, y ≤ v) → maxInt l = some v := by
  intro l
  induction l with
  | nil => intro hm _; cases hm
  | cons x xs ih =>
      intro hmem hub
      rw [maxInt]
      cases xs with
      | nil =>
          simp at hmem
          rw [hmem, maxInt]
      | cons y ys =>
          rcases maxInt_isSome y ys with ⟨m, hm⟩
          rw [hm]
          have hmle : m ≤ v := hub m (List.mem_cons_of_mem x (maxInt_mem (y :: ys) m hm))
          show some (max x m) = some v
          rcases List.mem_cons.mp hmem with he | he
          · subst he
            rw [max_eq_left hmle]
          · have := ih he (fun z hz => hub z (List.mem_cons_of_mem x hz))
            rw [hm] at this
            cases this
            rw [max_eq_right (hub x (List.mem_cons_self x _))]

theorem covers_minStart (m : Subj) {lo hi : Int} {a : Row} {t : List Row}
    (h : Covers lo hi (a :: t)) (hwf : ∀ r ∈ a :: t, RowOk m r) :
    minInt ((a :: t).map Row.start) = some lo := by
  have hb := covers_mem_bounds m h hwf
  have ha : a.start = lo := by rw [Covers] at h; exact h.1
  rw [List.map_cons, ha]
  apply minInt_head
  intro y hy
  rcases List.mem_map.mp hy with ⟨r, hr, hre⟩
  rw [hre.symm]
  exact (hb r (List.mem_cons_of_mem a hr)).1

theorem covers_lastStop {lo hi : Int} :
    ∀ {l : List Row} {a : Row}, Covers lo hi (a :: l) → ∃ s ∈ a :: l, s.stop = hi := by
  intro l
  induction l generalizing lo with
  | nil =>
      intro a h
      rw [Covers, Covers] at h
      exact ⟨a, List.mem_cons_self _ _, by omega⟩
  | cons b u ih =>
      intro a h
      rw [Covers] at h
      rcases ih h.2 with ⟨s, hs, he⟩
      exact ⟨s, List.mem_cons_of_mem a hs, he⟩

theorem covers_maxStop (m : Subj) {lo hi : Int} {a : Row} {t : List Row}
    (h : Covers lo hi (a :: t)) (hwf : ∀ r ∈ a :: t, RowOk m r) :
    maxInt ((a :: t).map Row.stop) = some hi := by
  have hb := covers_mem_bounds m h hwf
  rcases covers_lastStop h with ⟨s, hs, he⟩
  refine maxInt_eq hi _ ?_ ?_
  · rw [List.mem_map]
    exact ⟨s, hs, he⟩
  · intro y hy
    rcases List.mem_map.mp hy with ⟨r, hr, hre⟩
    rw [hre.symm]
    exact (hb r hr).2

/-! ## Well-formedness is preserved by every stage -/

theorem sortRows_mem {r : Row} {l : List Row} : r ∈ sortRows l ↔ r ∈ l :=
  (sortBy_perm rowLe l).mem_iff

theorem prep_wf (ref : Int) (m : Subj) (rs : List Rec)
    (hp : ∀ c ∈ rs, c.pid = m.pid) :
    ∀ r ∈ prep ref m rs, RowOk m r := by
  intro r hr
  rw [prep] at hr
  rcases List.mem_map.mp (sortRows_mem.mp hr) with ⟨c, hc, he⟩
  rcases List.mem_filter.mp hc with ⟨hc1, hc2⟩
  rcases List.mem_map.mp hc1 with ⟨c0, hc0, he0⟩
  subst he
  subst he0
  simp only [validRec, clipRec, Bool.and_eq_true, decide_eq_true_eq] at hc2
  refine ⟨hp c0 hc0, ?_, ?_, ?_⟩
  · exact le_max_right _ _
  · exact hc2.1.1
  · exact min_le_right _ _

theorem updateStops_wf (md : Int) (m : Subj) :
    ∀ l : List Row, (∀ r ∈ l, RowOk m r) → ∀ p ∈ updateStops md l, RowOk m p.1 := by
  intro l
  induction l with
  | nil => intro _ p hp; rw [updateStops] at hp; cases hp
  | cons a t ih =>
      intro h p hp
      cases t with
      | nil =>
          rw [updateStops] at hp
          rcases List.mem_singleton.mp hp with he
          rw [he]
          exact h a (List.mem_cons_self a _)
      | cons b u =>
          rw [updateStops] at hp
          rcases List.mem_cons.mp hp with he | hm
          · subst he
            split
            · rename_i hcm
              have ha := h a (List.mem_cons_self a _)
              have hb := h b (List.mem_cons_of_mem a (List.mem_cons_self b u))
              rcases ha with ⟨h1, h2, h3, h4⟩
              rcases hb with ⟨_, _, _, h8⟩
              refine ⟨h1, h2, ?_, ?_⟩
              · exact le_trans h3 (le_max_left _ _)
              · exact max_le h4 h8
            · exact h a (List.mem_cons_self a _)
          · exact ih (fun r hr => h r (List.mem_cons_of_mem a hr)) p hm

theorem dropSubsumed_mem :
    ∀ (t : List (Row × Bool)) (prev : Row × Bool) (r : Row),
      r ∈ dropSubsumed prev t → ∃ p ∈ t, p.1 = r := by
  intro t
  induction t with
  | nil => intro prev r hr; rw [dropSubsumed] at hr; cases hr
  | cons q u ih =>
      intro prev r hr
      rw [dropSubsumed] at hr
      split at hr
      · rcases ih q r hr with ⟨p, hp, he⟩
        exact ⟨p, List.mem_cons_of_mem q hp, he⟩
      · rcases List.mem_cons.mp hr with he | hm
        · exact ⟨q, List.mem_cons_self q u, he.symm⟩
        · rcases ih q r hm with ⟨p, hp, he⟩
          exact ⟨p, List.mem_cons_of_mem q hp, he⟩

theorem mergePass_wf (md : Int) (m : Subj) (l : List Row)
    (h : ∀ r ∈ l, RowOk m r) : ∀ r ∈ mergePass md l, RowOk m r := by
  intro r hr
  rw [mergePass] at hr
  cases hu : updateStops md l with
  | nil => rw [hu] at hr; cases hr
  | cons p t =>
      rw [hu] at hr
      rcases List.mem_cons.mp hr with he | hm
      · subst he
        exact updateStops_wf md m l h p (by rw [hu]; exact List.mem_cons_self p t)
      · rcases dropSubsumed_mem t p r hm with ⟨q, hq, he⟩
        rw [he.symm]
        exact updateStops_wf md m l h q (by rw [hu]; exact List.mem_cons_of_mem p hq)

theorem mergeLoop_wf (md : Int) (m : Subj) :
    ∀ (fuel : Nat) (l : List Row), (∀ r ∈ l, RowOk m r) →
      ∀ r ∈ mergeLoop md fuel l, RowOk m r := by
  intro fuel
  induction fuel with
  | zero => intro l h r hr; exact h r hr
  | succ g ih =>
      intro l h r hr
      rw [mergeLoop] at hr
      have hs : ∀ x ∈ sortRows l, RowOk m x := fun x hx => h x (sortRows_mem.mp hx)
      split at hr
      · exact ih _ (mergePass_wf md m _ hs) r hr
      · exact hs r hr

theorem dedupRows_mem :
    ∀ (l : List Row) (seen : List (Int × Int × Int × Int)) (r : Row),
      r ∈ dedupRows seen l → r ∈ l := by
  intro l
  induction l with
  | nil => intro seen r hr; rw [dedupRows] at hr; cases hr
  | cons q u ih =>
      intro seen r hr
      rw [dedupRows] at hr
      split at hr
      · exact List.mem_cons_of_mem q (ih _ r hr)
      · rcases List.mem_cons.mp hr with he | hm
        · rw [he]; exact List.mem_cons_self q u
        · exact List.mem_cons_of_mem q (ih _ r hm)

theorem mergePeriods_wf (md : Int) (m : Subj) (l : List Row)
    (h : ∀ r ∈ l, RowOk m r) : ∀ r ∈ mergePeriods md l, RowOk m r := by
  intro r hr
  rw [mergePeriods] at hr
  split at hr
  · exact h r hr
  · exact mergeLoop_wf md m 1000 l h r (dedupRows_mem _ [] r hr)

theorem layerWalk_wf (m : Subj) :
    ∀ l : List Row, (∀ r ∈ l, RowOk m r) →
      (∀ r ∈ (layerWalk l).1, RowOk m r) ∧ (∀ r ∈ (layerWalk l).2, RowOk m r) := by
  intro l
  induction l with
  | nil => intro _; exact ⟨fun r hr => absurd hr (List.not_mem_nil r), fun r hr => absurd hr (List.not_mem_nil r)⟩
  | cons a t ih =>
      intro h
      cases t with
      | nil =>
          constructor
          · intro r hr
            rcases List.mem_singleton.mp hr with he
            rw [he]; exact h a (List.mem_cons_self a _)
          · intro r hr
            cases hr
      | cons b u =>
          have ha := h a (List.mem_cons_self a _)
          have hb := h b (List.mem_cons_of_mem a (List.mem_cons_self b u))
          have hrest := ih (fun r hr => h r (List.mem_cons_of_mem a hr))
          rw [layerWalk]
          constructor
          · intro r hr
            simp only at hr
            split at hr
            · rename_i hov
              split at hr
              · rename_i hguard
                simp only [decide_eq_true_eq] at hguard
                rcases List.mem_cons.mp hr with he | hm
                · subst he
                  rcases ha with ⟨h1, h2, _, _⟩
                  rcases hb with ⟨_, _, h7, h8⟩
                  exact ⟨h1, h2, hguard, by simp only; omega⟩
                · exact hrest.1 r hm
              · exact hrest.1 r hr
            · split at hr
              · rename_i hguard
                simp only [decide_eq_true_eq] at hguard
                rcases List.mem_cons.mp hr with he | hm
                · subst he
                  exact ha
                · exact hrest.1 r hm
              · exact hrest.1 r hr
          · intro r hr
            simp only at hr
            rcases List.mem_append.mp hr with hm | hm
            · rcases List.mem_filter.mp hm with ⟨hm1, hm2⟩
              simp only [decide_eq_true_eq] at hm2
              split at hm1
              · rcases List.mem_singleton.mp hm1 with he
                subst he
                rcases ha with ⟨h1, h2, h3, h4⟩
                rcases hb with ⟨_, h6, h7, h8⟩
                refine ⟨h1, by simp only; omega, hm2, h4⟩
              · cases hm1
            · exact hrest.2 r hm

theorem layerResolve_wf (m : Subj) (l : List Row)
    (h : ∀ r ∈ l, RowOk m r) : ∀ r ∈ layerResolve l, RowOk m r := by
  intro r hr
  rw [layerResolve] at hr
  have hs : ∀ x ∈ sortRows l, RowOk m x := fun x hx => h x (sortRows_mem.mp hx)
  have hw := layerWalk_wf m (sortRows l) hs
  split at hr
  · exact hw.1 r hr
  · rcases List.mem_append.mp (sortRows_mem.mp hr) with hm | hm
    · exact hw.1 r hm
    · exact hw.2 r hm

theorem layerLoop_wf (md : Int) (m : Subj) :
    ∀ (fuel : Nat) (l : List Row), (∀ r ∈ l, RowOk m r) →
      ∀ r ∈ layerLoop md fuel l, RowOk m r := by
  intro fuel
  induction fuel with
  | zero => intro l h r hr; exact h r hr
  | succ g ih =>
      intro l h r hr
      rw [layerLoop] at hr
      have he : ∀ x ∈ sortRows (mergePeriods md (layerResolve l)), RowOk m x := by
        intro x hx
        exact mergePeriods_wf md m _ (layerResolve_wf m l h) x (sortRows_mem.mp hx)
      split at hr
      · exact ih _ he r hr
      · exact he r hr

/-! ## A sorted permutation of same-subject rows with distinct starts is unique -/

theorem chain'_rowLe_of_disjoint (m : Subj) :
    ∀ l : List Row, (∀ r ∈ l, RowOk m r) → DisjointSorted l →
      List.Chain' (fun a b => rowLe a b = true) l := by
  intro l
  induction l with
  | nil => intro _ _; exact List.chain'_nil
  | cons a t ih =>
      intro hwf hd
      cases t with
      | nil => exact List.chain'_singleton a
      | cons b u =>
          rw [DisjointSorted] at hd
          refine List.chain'_cons.mpr ⟨?_, ih (fun r hr => hwf r (List.mem_cons_of_mem a hr))
            (List.chain'_cons.mp hd).2⟩
          have h1 := (List.chain'_cons.mp hd).1
          have ha := hwf a (List.mem_cons_self a _)
          have hb := hwf b (List.mem_cons_of_mem a (List.mem_cons_self b u))
          simp only [rowLe, Bool.or_eq_true, Bool.and_eq_true, decide_eq_true_eq]
          rcases ha with ⟨ha1, _, ha3, _⟩
          rcases hb with ⟨hb1, _, _, _⟩
          right
          exact ⟨by omega, Or.inl (by omega)⟩

theorem chain'_strict_of_rowLe (m : Subj) :
    ∀ l : List Row, (∀ r ∈ l, r.pid = m.pid) →
      List.Chain' (fun a b => rowLe a b = true) l →
      List.Chain' (fun a b => a.start ≠ b.start) l →
      List.Chain' (fun a b => a.start < b.start) l := by
  intro l
  induction l with
  | nil => intro _ _ _; exact List.chain'_nil
  | cons a t ih =>
      intro hp h1 h2
      cases t with
      | nil => exact List.chain'_singleton a
      | cons b u =>
          refine List.chain'_cons.mpr ⟨?_, ih (fun r hr => hp r (List.mem_cons_of_mem a hr))
            (List.chain'_cons.mp h1).2 (List.chain'_cons.mp h2).2⟩
          have hr1 := (List.chain'_cons.mp h1).1
          have hr2 := (List.chain'_cons.mp h2).1
          have hpa := hp a (List.mem_cons_self a _)
          have hpb := hp b (List.mem_cons_of_mem a (List.mem_cons_self b u))
          simp only [rowLe, Bool.or_eq_true, Bool.and_eq_true, decide_eq_true_eq] at hr1
          omega

theorem perm_eq_of_sorted (m : Subj) (l₁ l₂ : List Row)
    (hperm : List.Perm l₁ l₂)
    (hpid : ∀ r ∈ l₁, r.pid = m.pid)
    (hstrict : List.Pairwise (fun a b => a.start < b.start) l₁)
    (hsorted : List.Chain' (fun a b => rowLe a b = true) l₂) : l₁ = l₂ := by
  haveI : IsTrans Row (fun a b => a.start < b.start) := ⟨fun _ _ _ h1 h2 => lt_trans h1 h2⟩
  haveI : IsAntisymm Row (fun a b => a.start < b.start) :=
    ⟨fun a b h1 h2 => absurd (lt_trans h1 h2) (lt_irrefl _)⟩
  have hne1 : List.Pairwise (fun a b : Row => a.start ≠ b.start) l₁ :=
    hstrict.imp (fun h => ne_of_lt h)
  have hne2 : List.Pairwise (fun a b : Row => a.start ≠ b.start) l₂ :=
    (List.Perm.pairwise_iff (fun h => Ne.symm h) hperm).mp hne1
  have hpid2 : ∀ r ∈ l₂, r.pid = m.pid := fun r hr => hpid r (hperm.mem_iff.mpr hr)
  have hstrict2 : List.Pairwise (fun a b : Row => a.start < b.start) l₂ := by
    rw [List.chain'_iff_pairwise.symm]
    exact chain'_strict_of_rowLe m l₂ hpid2 hsorted hne2.chain'
  exact List.eq_of_perm_of_sorted hperm hstrict hstrict2

/-! ## The gap stage produces the in-place gap-filled arrangement -/

theorem weave_wf (ref g : Int) (m : Subj) (hg : 0 ≤ g) :
    ∀ l : List Row, (∀ r ∈ l, RowOk m r) → ∀ r ∈ weave ref g l, RowOk m r := by
  intro l
  induction l with
  | nil => intro _ r hr; rw [weave] at hr; cases hr
  | cons a t ih =>
      intro hwf r hr
      cases t with
      | nil =>
          rw [weave] at hr
          rcases List.mem_singleton.mp hr with he
          rw [he]
          exact hwf a (List.mem_cons_self a _)
      | cons b u =>
          rw [weave] at hr
          rcases List.mem_cons.mp hr with he | hm
          · rw [he]; exact hwf a (List.mem_cons_self a _)
          · rcases List.mem_append.mp hm with hg2 | hw
            · have ha := hwf a (List.mem_cons_self a _)
              have hb := hwf b (List.mem_cons_of_mem a (List.mem_cons_self b u))
              split at hg2
              · rename_i hcond
                simp only [Bool.and_eq_true, decide_eq_true_eq] at hcond
                rcases List.mem_singleton.mp hg2 with he
                rw [he]
                rcases ha with ⟨h1, h2, h3, h4⟩
                rcases hb with ⟨_, _, h7, h8⟩
                refine ⟨h1, ?_, ?_, ?_⟩
                · show m.entry ≤ a.stop + 1
                  omega
                · show a.stop + 1 ≤ b.start - 1
                  omega
                · show b.start - 1 ≤ m.exit
                  omega
              · cases hg2
            · exact ih (fun x hx => hwf x (List.mem_cons_of_mem a hx)) r hw

theorem weave_perm (ref g : Int) :
    ∀ l : List Row, List.Perm (weave ref g l) (l ++ gapsOf ref g l) := by
  intro l
  induction l with
  | nil => rw [weave, gapsOf]; exact List.Perm.refl _
  | cons a t ih =>
      cases t with
      | nil => rw [weave, gapsOf]; exact List.Perm.refl _
      | cons b u =>
          rw [weave, gapsOf, List.cons_append]
          refine List.Perm.cons a ?_
          have h1 := List.Perm.append_left
            (if decide (a.pid = b.pid) && decide (b.start - a.stop - 1 > g) then [gapRow ref a b]
             else []) ih
          refine h1.trans ?_
          have e1 : ∀ x y z : List Row, x ++ (y ++ z) = (x ++ y) ++ z :=
            fun x y z => (List.append_assoc x y z).symm
          rw [e1, e1]
          exact List.Perm.append_right _ (List.perm_append_comm)

theorem gapsOf_nil_weave (ref g : Int) :
    ∀ l : List Row, gapsOf ref g l = [] → weave ref g l = l := by
  intro l
  induction l with
  | nil => intro _; rfl
  | cons a t ih =>
      intro h
      cases t with
      | nil => rfl
      | cons b u =>
          rw [gapsOf] at h
          rcases List.append_eq_nil.mp h with ⟨h1, h2⟩
          rw [weave, h1, ih h2, List.nil_append]

theorem covers_pairwise_startlt (m : Subj) {hi : Int} :
    ∀ {l : List Row} {lo : Int}, Covers lo hi l → (∀ r ∈ l, RowOk m r) →
      List.Pairwise (fun a b : Row => a.start < b.start) l := by
  intro l
  induction l with
  | nil => intro lo _ _; exact List.Pairwise.nil
  | cons a t ih =>
      intro lo h hwf
      rw [Covers] at h
      refine List.pairwise_cons.mpr ⟨?_, ih h.2 (fun r hr => hwf r (List.mem_cons_of_mem a hr))⟩
      intro b hb
      have hbd := covers_mem_bounds m h.2 (fun r hr => hwf r (List.mem_cons_of_mem a hr)) b hb
      have ha := hwf a (List.mem_cons_self a _)
      rcases ha with ⟨_, _, h3, _⟩
      omega

theorem weave_covers (ref : Int) (m : Subj) :
    ∀ (t : List Row) (a : Row), (∀ r ∈ a :: t, RowOk m r) → DisjointSorted (a :: t) →
      ∃ hi, Covers a.start hi (weave ref 0 (a :: t)) ∧ hi ≤ m.exit := by
  intro t
  induction t with
  | nil =>
      intro a hwf _
      refine ⟨a.stop, ?_, (hwf a (List.mem_cons_self a _)).2.2.2⟩
      rw [weave, Covers, Covers]
      exact ⟨rfl, rfl⟩
  | cons b u ih =>
      intro a hwf hd
      have ha := hwf a (List.mem_cons_self a _)
      have hb := hwf b (List.mem_cons_of_mem a (List.mem_cons_self b u))
      have hd2 : DisjointSorted (b :: u) := (List.chain'_cons.mp hd).2
      have hab : a.stop < b.start := (List.chain'_cons.mp hd).1
      rcases ih b (fun r hr => hwf r (List.mem_cons_of_mem a hr)) hd2 with ⟨hi, hcov, hle⟩
      refine ⟨hi, ?_, hle⟩
      rw [weave]
      by_cases hgap : b.start - a.stop - 1 > 0
      · rw [if_pos (by
          simp only [Bool.and_eq_true, decide_eq_true_eq]
          exact ⟨by rw [ha.1, hb.1], hgap⟩)]
        rw [Covers]
        refine ⟨rfl, ?_⟩
        rw [List.singleton_append, Covers]
        refine ⟨rfl, ?_⟩
        have : (gapRow ref a b).stop + 1 = b.start := by
          simp only [gapRow]
          omega
        rw [this]
        exact hcov
      · rw [if_neg (by
          simp only [Bool.and_eq_true, decide_eq_true_eq]
          intro hc
          exact hgap hc.2)]
        rw [List.nil_append, Covers]
        refine ⟨rfl, ?_⟩
        have heq : a.stop + 1 = b.start := by omega
        rw [heq]
        exact hcov

theorem weave_cons (ref g : Int) (a : Row) (t : List Row) :
    ∃ w, weave ref g (a :: t) = a :: w := by
  cases t with
  | nil => exact ⟨[], rfl⟩
  | cons b u => exact ⟨_, rfl⟩

theorem gapStage_weave (ref : Int) (m : Subj) (l : List Row)
    (hwf : ∀ r ∈ l, RowOk m r) (hd : DisjointSorted l) :
    gapStage ref 0 l = weave ref 0 l := by
  rw [gapStage]
  cases l with
  | nil => rw [weave]; rfl
  | cons a t =>
      rw [show (a :: t).isEmpty = false from rfl]
      simp only [Bool.false_eq_true, if_false]
      have hsorted : sortRows (a :: t) = a :: t :=
        sortBy_eq_self rowLe _ (chain'_rowLe_of_disjoint m _ hwf hd)
      rw [hsorted]
      by_cases hg : gapsOf ref 0 (a :: t) = []
      · rw [hg]
        simp only [List.isEmpty_nil, if_true]
        exact (gapsOf_nil_weave ref 0 _ hg).symm
      · rw [if_neg (by
          intro hc
          exact hg (List.isEmpty_iff.mp hc))]
        refine (perm_eq_of_sorted m (weave ref 0 (a :: t)) _ ?_ ?_ ?_ ?_).symm
        · exact (weave_perm ref 0 (a :: t)).trans (sortBy_perm rowLe _).symm
        · intro r hr
          exact (weave_wf ref 0 m le_rfl (a :: t) hwf r hr).1
        · rcases weave_covers ref m t a hwf hd with ⟨hi, hcov, _⟩
          exact covers_pairwise_startlt m hcov (weave_wf ref 0 m le_rfl (a :: t) hwf)
        · exact sortBy_chain' rowLe rowLe_total _

theorem baselineRows_of_min (ref : Int) (m : Subj) (l : List Row) (lo : Int)
    (h : minInt (l.map Row.start) = some lo) :
    baselineRows ref m l =
      if m.entry ≤ lo - 1 then
        [{ pid := m.pid, start := m.entry, stop := lo - 1, value := ref, binary := 0,
           cat := ref, entry := m.entry, exit := m.exit }]
      else [] := by
  simp only [baselineRows, h]
  by_cases hc : m.entry ≤ lo - 1
  · rw [if_pos (by simpa using hc), if_pos hc]
  · rw [if_neg (by simpa using hc), if_neg hc]

theorem postRows_of_max (ref : Int) (m : Subj) (l : List Row) (hi : Int)
    (h : maxInt (l.map Row.stop) = some hi) :
    postRows ref m l =
      if hi < m.exit then
        [{ pid := m.pid, start := hi + 1, stop := m.exit, value := ref, binary := 0,
           cat := ref, entry := m.entry, exit := m.exit }]
      else [] := by
  simp only [postRows, h]
  by_cases hc : hi < m.exit
  · rw [if_pos (by simpa using hc), if_pos hc]
  · rw [if_neg (by simpa using hc), if_neg hc]

theorem perSubject_covers (ref : Int) (m : Subj) (rs : List Rec)
    (hp : ∀ c ∈ rs, c.pid = m.pid) (hwin : m.entry ≤ m.exit)
    (hstab : DisjointSorted (layerLoop 0 1000 (mergePeriods 0 (prep ref m rs)))) :
    Covers m.entry m.exit (perSubject ⟨ref, 0, 0, .timevarying⟩ m rs) := by
  have hwfL : ∀ r ∈ layerLoop 0 1000 (mergePeriods 0 (prep ref m rs)), RowOk m r :=
    layerLoop_wf 0 m 1000 _ (mergePeriods_wf 0 m _ (prep_wf ref m rs hp))
  rw [perSubject]
  rw [show (∀ x, classify ⟨ref, 0, 0, .timevarying⟩ x = x) from fun _ => rfl]
  rw [allPeriods]
  rw [show ((⟨ref, 0, 0, .timevarying⟩ : Config).reference) = ref from rfl]
  rw [show ((⟨ref, 0, 0, .timevarying⟩ : Config).mergeDays) = 0 from rfl]
  rw [show ((⟨ref, 0, 0, .timevarying⟩ : Config).grace) = 0 from rfl]
  cases hL : layerLoop 0 1000 (mergePeriods 0 (prep ref m rs)) with
  | nil =>
      rw [show gapStage ref 0 [] = [] from rfl]
      rw [show baselineRows ref m [] =
        (if decide (m.entry ≤ m.exit + 1 - 1) = true then
          [{ pid := m.pid, start := m.entry, stop := m.exit + 1 - 1, value := ref, binary := 0,
             cat := ref, entry := m.entry, exit := m.exit }]
         else []) from rfl]
      rw [if_pos (by simp only [decide_eq_true_eq]; omega)]
      rw [show postRows ref m [] = [] from rfl]
      rw [List.nil_append, List.append_nil]
      rw [show ∀ x : Row, sortRows [x] = [x] from fun x => rfl]
      rw [Covers, Covers]
      refine ⟨rfl, ?_⟩
      show m.exit + 1 - 1 + 1 = m.exit + 1
      omega
  | cons a t =>
      rw [hL] at hstab hwfL
      rw [gapStage_weave ref m (a :: t) hwfL hstab]
      rcases weave_covers ref m t a hwfL hstab with ⟨hi, hcov, hhi⟩
      have hwfG := weave_wf ref 0 m le_rfl (a :: t) hwfL
      rcases weave_cons ref 0 a t with ⟨w, hw⟩
      have ha : RowOk m a := hwfL a (List.mem_cons_self a _)
      have hastop : a.stop ≤ hi := by
        have := covers_mem_bounds m hcov hwfG a (by rw [hw]; exact List.mem_cons_self a w)
        exact this.2
      have hmin : minInt ((weave ref 0 (a :: t)).map Row.start) = some a.start := by
        rw [hw]
        rw [hw] at hcov hwfG
        exact covers_minStart m hcov hwfG
      have hmax : maxInt ((weave ref 0 (a :: t)).map Row.stop) = some hi := by
        rw [hw]
        rw [hw] at hcov hwfG
        exact covers_maxStop m hcov hwfG
      set G := weave ref 0 (a :: t) with hGdef
      set B := baselineRows ref m G with hBdef
      set P := postRows ref m G with hPdef
      have hBval : (m.entry ≤ a.start - 1 ∧ B =
          [{ pid := m.pid, start := m.entry, stop := a.start - 1, value := ref, binary := 0,
             cat := ref, entry := m.entry, exit := m.exit }]) ∨
          (a.start = m.entry ∧ B = []) := by
        rw [hBdef, baselineRows_of_min ref m G a.start hmin]
        by_cases hc : m.entry ≤ a.start - 1
        · left
          exact ⟨hc, if_pos hc⟩
        · right
          have : a.start = m.entry := by
            rcases ha with ⟨_, h2, _, _⟩
            omega
          exact ⟨this, if_neg hc⟩
      have hPval : (hi < m.exit ∧ P =
          [{ pid := m.pid, start := hi + 1, stop := m.exit, value := ref, binary := 0,
             cat := ref, entry := m.entry, exit := m.exit }]) ∨
          (hi = m.exit ∧ P = []) := by
        rw [hPdef, postRows_of_max ref m G hi hmax]
        by_cases hc : hi < m.exit
        · left
          exact ⟨hc, if_pos hc⟩
        · right
          exact ⟨by omega, if_neg hc⟩
      have hcovB : Covers m.entry (a.start - 1) B ∨ (B = [] ∧ a.start = m.entry) := by
        rcases hBval with ⟨hc, he⟩ | ⟨hc, he⟩
        · left
          rw [he, Covers, Covers]
          exact ⟨rfl, rfl⟩
        · right
          exact ⟨he, hc⟩
      have hcovP : Covers (hi + 1) m.exit P := by
        rcases hPval with ⟨hc, he⟩ | ⟨hc, he⟩
        · rw [he, Covers, Covers]
          exact ⟨rfl, rfl⟩
        · rw [he, Covers]
          omega
      have hcovFull : Covers m.entry m.exit (B ++ G ++ P) := by
        refine covers_append ?_ hcovP
        rcases hcovB with hB | ⟨hBe, hae⟩
        · refine covers_append hB ?_
          rw [show a.start - 1 + 1 = a.start from by omega]
          exact hcov
        · rw [hBe, List.nil_append, ← hae]
          exact hcov
      have hwfFull : ∀ r ∈ B ++ G ++ P, RowOk m r := by
        intro r hr
        rcases List.mem_append.mp hr with hr1 | hrP
        · rcases List.mem_append.mp hr1 with hrB | hrG
          · rcases hBval with ⟨hc, he⟩ | ⟨_, he⟩
            · rw [he] at hrB
              rcases List.mem_singleton.mp hrB with hre
              rw [hre]
              rcases ha with ⟨_, _, h3, h4⟩
              exact ⟨rfl, le_refl _, by simp only; omega, by simp only; omega⟩
            · rw [he] at hrB
              cases hrB
          · exact hwfG r hrG
        · rcases hPval with ⟨hc, he⟩ | ⟨_, he⟩
          · rw [he] at hrP
            rcases List.mem_singleton.mp hrP with hre
            rw [hre]
            rcases ha with ⟨_, h2, h3, _⟩
            exact ⟨rfl, by simp only; omega, by simp only; omega, le_refl _⟩
          · rw [he] at hrP
            cases hrP
      have heq : B ++ G ++ P = sortRows (G ++ B ++ P) := by
        refine perm_eq_of_sorted m _ _ ?_ ?_ ?_ ?_
        · refine List.Perm.trans ?_ (sortBy_perm rowLe _).symm
          exact List.Perm.append_right P (List.perm_append_comm)
        · intro r hr
          exact (hwfFull r hr).1
        · exact covers_pairwise_startlt m hcovFull hwfFull
        · exact sortBy_chain' rowLe rowLe_total _
      rw [← heq]
      exact hcovFull

/-! ## Every output row of a subject's pipeline carries that subject's id -/

theorem gapsOf_pid (ref g p : Int) :
    ∀ l : List Row, (∀ r ∈ l, r.pid = p) → ∀ r ∈ gapsOf ref g l, r.pid = p := by
  intro l
  induction l with
  | nil => intro _ r hr; rw [gapsOf] at hr; cases hr
  | cons a t ih =>
      intro h r hr
      cases t with
      | nil => rw [gapsOf] at hr; cases hr
      | cons b u =>
          rw [gapsOf] at hr
          rcases List.mem_append.mp hr with hm | hm
          · split at hm
            · rcases List.mem_singleton.mp hm with he
              rw [he, gapRow]
              exact h a (List.mem_cons_self a _)
            · cases hm
          · exact ih (fun x hx => h x (List.mem_cons_of_mem a hx)) r hm

theorem gapStage_mem (ref g : Int) (l : List Row) :
    ∀ r ∈ gapStage ref g l, r ∈ sortRows l ∨ r ∈ gapsOf ref g (sortRows l) := by
  intro r hr
  rw [gapStage] at hr
  split at hr
  · exact Or.inl (sortRows_mem.mpr hr)
  · have hr2 : r ∈ (if (gapsOf ref g (sortRows l)).isEmpty then sortRows l
        else sortRows (sortRows l ++ gapsOf ref g (sortRows l))) := hr
    split at hr2
    · exact Or.inl hr2
    · exact List.mem_append.mp (sortRows_mem.mp hr2)

theorem gapStage_pid (ref g p : Int) (l : List Row)
    (h : ∀ r ∈ l, r.pid = p) : ∀ r ∈ gapStage ref g l, r.pid = p := by
  intro r hr
  have hs : ∀ x ∈ sortRows l, x.pid = p := fun x hx => h x (sortRows_mem.mp hx)
  rcases gapStage_mem ref g l r hr with hm | hm
  · exact hs r hm
  · exact gapsOf_pid ref g p _ hs r hm

theorem baselineRows_pid (ref : Int) (m : Subj) (l : List Row) :
    ∀ r ∈ baselineRows ref m l, r.pid = m.pid := by
  intro r hr
  rw [baselineRows] at hr
  split at hr
  · rcases List.mem_singleton.mp hr with he
    rw [he]
  · cases hr

theorem postRows_pid (ref : Int) (m : Subj) (l : List Row) :
    ∀ r ∈ postRows ref m l, r.pid = m.pid := by
  intro r hr
  rw [postRows] at hr
  split at hr
  · cases hr
  · split at hr
    · rcases List.mem_singleton.mp hr with he
      rw [he]
    · cases hr

theorem collapseGo_pid (p : Int) :
    ∀ (t : List Row) (acc : Row), acc.pid = p → (∀ r ∈ t, r.pid = p) →
      ∀ r ∈ collapseGo acc t, r.pid = p := by
  intro t
  induction t with
  | nil =>
      intro acc hacc _ r hr
      rw [collapseGo] at hr
      rcases List.mem_singleton.mp hr with he
      rw [he]; exact hacc
  | cons q u ih =>
      intro acc hacc h r hr
      rw [collapseGo] at hr
      split at hr
      · exact ih { acc with start := min acc.start q.start, stop := max acc.stop q.stop }
          hacc (fun x hx => h x (List.mem_cons_of_mem q hx)) r hr
      · rcases List.mem_cons.mp hr with he | hm
        · rw [he]; exact hacc
        · exact ih q (h q (List.mem_cons_self q u))
            (fun x hx => h x (List.mem_cons_of_mem q hx)) r hm

theorem collapsePeriods_pid (p : Int) (l : List Row)
    (h : ∀ r ∈ l, r.pid = p) : ∀ r ∈ collapsePeriods l, r.pid = p := by
  intro r hr
  rw [collapsePeriods] at hr
  have hs : ∀ x ∈ sortRows l, x.pid = p := fun x hx => h x (sortRows_mem.mp hx)
  cases he : sortRows l with
  | nil => rw [he] at hr; cases hr
  | cons a t =>
      rw [he] at hr hs
      exact collapseGo_pid p t a (hs a (List.mem_cons_self a t))
        (fun x hx => hs x (List.mem_cons_of_mem a hx)) r hr

theorem cfAssign_pid (fe : Option Int) (r : Row) : (cfAssign fe r).pid = r.pid := by
  cases fe with
  | none => rfl
  | some f =>
      simp only [cfAssign]
      split
      · rfl
      · split
        · rfl
        · rfl

theorem classify_pid (cfg : Config) (p : Int) (l : List Row)
    (h : ∀ r ∈ l, r.pid = p) : ∀ r ∈ classify cfg l, r.pid = p := by
  obtain ⟨cr, cg, cm, cmode⟩ := cfg
  cases cmode with
  | timevarying =>
      intro r hr
      have hr2 : r ∈ l := hr
      exact h r hr2
  | currentformer =>
      intro r hr
      have hr2 : r ∈ applyCurrentformer l := hr
      rw [applyCurrentformer] at hr2
      refine collapsePeriods_pid p _ ?_ r hr2
      intro x hx
      rcases List.mem_map.mp hx with ⟨y, hy, he⟩
      rw [← he, cfAssign_pid]
      exact h y hy

theorem recsFor_pid (m : Subj) (recs : List Rec) :
    ∀ c ∈ recsFor m recs, c.pid = m.pid := by
  intro c hc
  rcases List.mem_filter.mp hc with ⟨_, h2⟩
  exact decide_eq_true_eq.mp h2

theorem allPeriods_pid (cfg : Config) (m : Subj) (rs : List Rec)
    (hp : ∀ c ∈ rs, c.pid = m.pid) :
    ∀ r ∈ allPeriods cfg m rs, r.pid = m.pid := by
  intro x hx
  rw [allPeriods] at hx
  have hL : ∀ x ∈ layerLoop cfg.mergeDays 1000 (mergePeriods cfg.mergeDays (prep cfg.reference m rs)),
      x.pid = m.pid := by
    intro x hx
    exact (layerLoop_wf cfg.mergeDays m 1000 _
      (mergePeriods_wf cfg.mergeDays m _ (prep_wf cfg.reference m rs hp)) x hx).1
  have hG := gapStage_pid cfg.reference cfg.grace m.pid _ hL
  rcases List.mem_append.mp (sortRows_mem.mp hx) with hm | hm
  · rcases List.mem_append.mp hm with hm2 | hm2
    · exact hG x hm2
    · exact baselineRows_pid cfg.reference m _ x hm2
  · exact postRows_pid cfg.reference m _ x hm

theorem perSubject_pid (cfg : Config) (m : Subj) (rs : List Rec)
    (hp : ∀ c ∈ rs, c.pid = m.pid) :
    ∀ r ∈ perSubject cfg m rs, r.pid = m.pid := by
  intro r hr
  rw [perSubject] at hr
  exact classify_pid cfg m.pid _ (allPeriods_pid cfg m rs hp) r hr

/-! ## Extracting one subject's block from the multi-subject output -/

theorem flatMap_filter_block (cfg : Config) (recs : List Rec) (s : Subj) :
    ∀ master : List Subj, (master.map Subj.pid).Nodup → s ∈ master →
      (master.flatMap (fun m => perSubject cfg m (recsFor m recs))).filter
          (fun r => decide (r.pid = s.pid)) =
        perSubject cfg s (recsFor s recs) := by
  intro master
  induction master with
  | nil => intro _ hs; cases hs
  | cons m ms ih =>
      intro hnd hs
      rw [List.flatMap_cons, List.filter_append]
      have hnd2 : (∀ x ∈ ms, ¬ x.pid = m.pid) ∧ (ms.map Subj.pid).Nodup := by
        simpa using hnd
      by_cases he : m = s
      · subst he
        have h1 : (perSubject cfg m (recsFor m recs)).filter
            (fun r => decide (r.pid = m.pid)) = perSubject cfg m (recsFor m recs) := by
          rw [List.filter_eq_self]
          intro r hr
          simp only [decide_eq_true_eq]
          exact perSubject_pid cfg m _ (recsFor_pid m recs) r hr
        have h2 : (ms.flatMap (fun x => perSubject cfg x (recsFor x recs))).filter
            (fun r => decide (r.pid = m.pid)) = [] := by
          rw [List.filter_eq_nil_iff]
          intro r hr
          rcases List.mem_flatMap.mp hr with ⟨x, hx, hrx⟩
          have hpx : r.pid = x.pid := perSubject_pid cfg x _ (recsFor_pid x recs) r hrx
          simp only [decide_eq_true_eq]
          rw [hpx]
          exact hnd2.1 x hx
        rw [h1, h2, List.append_nil]
      · have hs2 : s ∈ ms := by
          rcases List.mem_cons.mp hs with he2 | he2
          · exact absurd he2.symm he
          · exact he2
        have h1 : (perSubject cfg m (recsFor m recs)).filter
            (fun r => decide (r.pid = s.pid)) = [] := by
          rw [List.filter_eq_nil_iff]
          intro r hr
          have hpx : r.pid = m.pid := perSubject_pid cfg m _ (recsFor_pid m recs) r hr
          simp only [decide_eq_true_eq]
          rw [hpx]
          intro hc
          exact hnd2.1 s hs2 hc.symm
        rw [h1, ih hnd2.2 hs2, List.nil_append]

/-- C1, amended.  For every input accepted by `tvexpose` under the
default configuration (grace 0, merge_days 0, layer strategy, default
classifier), and for every subject of the master table (whose subject
ids are pairwise distinct) with `entry ≤ exit`, PROVIDED the merge/layer
fixed-point stage yields a non-overlapping sorted sequence for that
subject — which is guaranteed whenever the bounded loops stabilise
within their 1000-iteration safety caps — the subject's output rows are
pairwise non-overlapping (each stop strictly below the next start) and
their inclusive day-counts sum exactly to `exit - entry + 1`. -/
theorem tvexpose_c1_amended (ref : Int) (master : List Subj) (recs : List Rec)
    (out : List Row) (s : Subj)
    (hok : tvexpose ⟨ref, 0, 0, .timevarying⟩ master recs = .ok out)
    (hids : (master.map Subj.pid).Nodup) (hs : s ∈ master) (hwin : s.entry ≤ s.exit)
    (hstab : DisjointSorted (layerLoop 0 1000 (mergePeriods 0 (prep ref s (recsFor s recs))))) :
    DisjointSorted (out.filter (fun r => decide (r.pid = s.pid))) ∧
    daysOf (out.filter (fun r => decide (r.pid = s.pid))) = s.exit - s.entry + 1 := by
  have hout : out =
      master.flatMap (fun m => perSubject ⟨ref, 0, 0, .timevarying⟩ m (recsFor m recs)) := by
    rw [tvexpose] at hok
    split at hok
    · cases hok
    · injection hok with h
      exact h.symm
  rw [hout, flatMap_filter_block _ recs s master hids hs]
  have hcov := perSubject_covers ref s (recsFor s recs) (recsFor_pid s recs) hwin hstab
  exact ⟨covers_disjoint hcov, covers_daysOf hcov⟩

set_option maxHeartbeats 2000000 in
/-- Witness for `tvexpose_c1_amended`: one subject with window
`[0, 10]` and one exposure record `[2, 5]`. -/
theorem tvexpose_c1_amended_witness :
    tvexpose ⟨0, 0, 0, .timevarying⟩ [⟨1, 0, 10⟩] [⟨1, 2, 5, 7⟩] =
      .ok [⟨1, 0, 1, 0, 0, 0, 0, 10⟩, ⟨1, 2, 5, 7, 1, 7, 0, 10⟩, ⟨1, 6, 10, 0, 0, 0, 0, 10⟩] ∧
    DisjointSorted (([⟨1, 0, 1, 0, 0, 0, 0, 10⟩, ⟨1, 2, 5, 7, 1, 7, 0, 10⟩,
        ⟨1, 6, 10, 0, 0, 0, 0, 10⟩] : List Row).filter (fun r => decide (r.pid = (1 : Int)))) ∧
    daysOf (([⟨1, 0, 1, 0, 0, 0, 0, 10⟩, ⟨1, 2, 5, 7, 1, 7, 0, 10⟩,
        ⟨1, 6, 10, 0, 0, 0, 0, 10⟩] : List Row).filter (fun r => decide (r.pid = (1 : Int)))) =
      10 - 0 + 1 := by
  have hstab : DisjointSorted (layerLoop 0 1000 (mergePeriods 0
      (prep 0 ⟨1, 0, 10⟩ (recsFor ⟨1, 0, 10⟩ [⟨1, 2, 5, 7⟩])))) := by
    rw [show layerLoop 0 1000 (mergePeriods 0
      (prep 0 ⟨1, 0, 10⟩ (recsFor ⟨1, 0, 10⟩ [⟨1, 2, 5, 7⟩]))) =
        [⟨1, 2, 5, 7, 1, 7, 0, 10⟩] from by decide]
    exact List.chain'_singleton _
  have hok : tvexpose ⟨0, 0, 0, .timevarying⟩ [⟨1, 0, 10⟩] [⟨1, 2, 5, 7⟩] =
      .ok [⟨1, 0, 1, 0, 0, 0, 0, 10⟩, ⟨1, 2, 5, 7, 1, 7, 0, 10⟩,
        ⟨1, 6, 10, 0, 0, 0, 0, 10⟩] := rfl
  refine ⟨hok, ?_⟩
  exact tvexpose_c1_amended 0 [⟨1, 0, 10⟩] [⟨1, 2, 5, 7⟩] _ ⟨1, 0, 10⟩ hok
    (by simp) (List.mem_cons_self _ _) (by norm_num) hstab

theorem minInt_le {xs : List Int} {v : Int} (h : minInt xs = some v) :
    ∀ x ∈ xs, v ≤ x := by
  induction xs generalizing v with
  | nil => cases h
  | cons x xs ih =>
      intro y hy
      rw [minInt] at h
      cases hm : minInt xs with
      | none =>
          rw [hm] at h
          injection h with h
          subst h
          rcases List.mem_cons.mp hy with rfl | hy2
          · exact le_rfl
          · cases xs with
            | nil => cases hy2
            | cons a t =>
                rw [minInt] at hm
                cases hmt : minInt t <;> rw [hmt] at hm <;> cases hm
      | some m =>
          rw [hm] at h
          injection h with h
          subst h
          rcases List.mem_cons.mp hy with rfl | hy2
          · exact min_le_left _ _
          · exact le_trans (min_le_right x m) (ih hm y hy2)

theorem firstExp_le {l : List Row} {f : Int} (h : firstExp l = some f) :
    ∀ r ∈ l, r.binary = 1 → f ≤ r.start := by
  intro r hr hb
  refine minInt_le h r.start ?_
  exact List.mem_map_of_mem Row.start (List.mem_filter.mpr ⟨hr, by simp [hb]⟩)

theorem cfAssign_value_none (r : Row) : (cfAssign none r).value = 0 := rfl

theorem cfAssign_value_some (f : Int) (r : Row) :
    ((cfAssign (some f) r).value ≠ 0) ↔ (r.binary = 1 ∨ f ≤ r.start) := by
  simp only [cfAssign, ge_iff_le]
  by_cases hb : r.binary = 1 <;> by_cases hs : f ≤ r.start <;> simp [hb, hs]

theorem cfAssign_start (fe : Option Int) (r : Row) : (cfAssign fe r).start = r.start := by
  cases fe with
  | none => rfl
  | some f =>
      simp only [cfAssign]
      split
      · rfl
      · split <;> rfl

theorem cfAssign_stop (fe : Option Int) (r : Row) : (cfAssign fe r).stop = r.stop := by
  cases fe with
  | none => rfl
  | some f =>
      simp only [cfAssign]
      split
      · rfl
      · split <;> rfl

theorem rowLe_cfAssign (fe : Option Int) (a b : Row) :
    rowLe (cfAssign fe a) (cfAssign fe b) = rowLe a b := by
  rw [rowLe, rowLe, cfAssign_pid, cfAssign_pid, cfAssign_start, cfAssign_start,
    cfAssign_stop, cfAssign_stop]

theorem pairwise_rowLe_of_sorted (l : List Row)
    (hs : List.Chain' (fun a b => rowLe a b = true) l) :
    List.Pairwise (fun a b => rowLe a b = true) l := by
  haveI : IsTrans Row (fun a b => rowLe a b = true) := ⟨fun _ _ _ => rowLe_trans⟩
  exact List.chain'_iff_pairwise.mp hs

theorem cf_map_pairwise {p : Int} (l : List Row)
    (hpid : ∀ r ∈ l, r.pid = p)
    (hs : List.Chain' (fun a b => rowLe a b = true) l) :
    List.Pairwise (fun a b : Int => a ≠ 0 → b ≠ 0)
      ((l.map (cfAssign (firstExp l))).map Row.value) := by
  rw [List.pairwise_map, List.pairwise_map]
  have hpw : List.Pairwise (fun a b => rowLe a b = true) l := pairwise_rowLe_of_sorted l hs
  refine hpw.imp_of_mem ?_
  intro a b ha hb hab
  cases hfe : firstExp l with
  | none =>
      intro hcontra
      exact absurd (cfAssign_value_none a) hcontra
  | some f =>
      intro hv
      have hpa := hpid a ha
      have hpb := hpid b hb
      have hstart : a.start ≤ b.start := by
        simp only [rowLe, Bool.or_eq_true, Bool.and_eq_true, decide_eq_true_eq] at hab
        omega
      rcases (cfAssign_value_some f a).mp hv with hb1 | hfs
      · exact (cfAssign_value_some f b).mpr (Or.inr (le_trans (firstExp_le hfe a ha hb1) hstart))
      · exact (cfAssign_value_some f b).mpr (Or.inr (le_trans hfs hstart))

theorem collapseGo_values_sublist : ∀ (t : List Row) (acc : Row),
    ((collapseGo acc t).map Row.value).Sublist (acc.value :: t.map Row.value) := by
  intro t
  induction t with
  | nil => intro acc; simp [collapseGo]
  | cons r t ih =>
      intro acc
      rw [collapseGo]
      split
      · refine List.Sublist.trans
          (ih { acc with start := min acc.start r.start, stop := max acc.stop r.stop }) ?_
        rw [List.map_cons]
        exact List.Sublist.cons₂ _ (List.sublist_cons_self _ _)
      · rw [List.map_cons, List.map_cons]
        exact List.Sublist.cons₂ _ (ih r)

theorem collapsePeriods_values_sublist (l : List Row) :
    ((collapsePeriods l).map Row.value).Sublist ((sortRows l).map Row.value) := by
  cases h : sortRows l with
  | nil => rw [collapsePeriods, h]
  | cons x t =>
      rw [collapsePeriods, h]
      rw [List.map_cons]
      exact collapseGo_values_sublist t x

theorem applyCurrentformer_pairwise {p : Int} (l : List Row)
    (hpid : ∀ r ∈ l, r.pid = p)
    (hs : List.Chain' (fun a b => rowLe a b = true) l) :
    List.Pairwise (fun a b : Row => a.value ≠ 0 → b.value ≠ 0) (applyCurrentformer l) := by
  rw [applyCurrentformer]
  have hLs : sortRows (l.map (cfAssign (firstExp l))) = l.map (cfAssign (firstExp l)) := by
    apply sortBy_eq_self
    rw [List.chain'_map]
    refine hs.imp ?_
    intro a b hab
    rwa [rowLe_cfAssign]
  have h1 : List.Pairwise (fun a b : Int => a ≠ 0 → b ≠ 0)
      ((collapsePeriods (l.map (cfAssign (firstExp l)))).map Row.value) := by
    refine List.Pairwise.sublist (collapsePeriods_values_sublist _) ?_
    rw [hLs]
    exact cf_map_pairwise l hpid hs
  rwa [List.pairwise_map] at h1

/-- C5 (amended): under currentformer classification, a subject's block of
output rows (ordered by interval start, as tvexpose returns them) never
reverts to the never-exposed value 0 after a nonzero value: every row after
a row classified 1 or 2 is itself classified 1 or 2 (tvexpose.py lines
824-852 and 1012-1034: value 0 is assigned only to intervals starting
before the subject's first exposure start, and collapsing only drops
repeated values). -/
theorem tvexpose_c5_amended (ref g md : Int) (master : List Subj) (recs : List Rec)
    (out : List Row) (s : Subj)
    (hok : tvexpose ⟨ref, g, md, .currentformer⟩ master recs = .ok out)
    (hids : (master.map Subj.pid).Nodup) (hs : s ∈ master) :
    List.Pairwise (fun a b : Row => a.value ≠ 0 → b.value ≠ 0)
      (out.filter (fun r => decide (r.pid = s.pid))) := by
  have hout : out = master.flatMap
      (fun m => perSubject ⟨ref, g, md, .currentformer⟩ m (recsFor m recs)) := by
    rw [tvexpose] at hok
    split at hok
    · cases hok
    · injection hok with h
      exact h.symm
  subst hout
  rw [flatMap_filter_block ⟨ref, g, md, .currentformer⟩ recs s master hids hs]
  rw [perSubject]
  rw [show (∀ x, classify (⟨ref, g, md, .currentformer⟩ : Config) x = applyCurrentformer x)
    from fun _ => rfl]
  refine applyCurrentformer_pairwise (p := s.pid) _
    (allPeriods_pid _ s _ (recsFor_pid s recs)) ?_
  rw [allPeriods]
  exact sortBy_chain' rowLe rowLe_total _

/-- Instantiation of the amended C5 theorem on the re-exposure example:
the subject's five classified rows 0,1,2,1,2 never return to 0 after the
first exposure. -/
theorem tvexpose_c5_amended_witness :
    List.Pairwise (fun a b : Row => a.value ≠ 0 → b.value ≠ 0)
      (([⟨1, 0, 4, 0, 0, 0, 0, 30⟩, ⟨1, 5, 10, 1, 1, 7, 0, 30⟩, ⟨1, 11, 19, 2, 0, 0, 0, 30⟩,
         ⟨1, 20, 25, 1, 1, 7, 0, 30⟩, ⟨1, 26, 30, 2, 0, 0, 0, 30⟩] : List Row).filter
        (fun r => decide (r.pid = (⟨1, 0, 30⟩ : Subj).pid))) :=
  tvexpose_c5_amended 0 0 0 [⟨1, 0, 30⟩] [⟨1, 5, 10, 7⟩, ⟨1, 20, 25, 7⟩]
    [⟨1, 0, 4, 0, 0, 0, 0, 30⟩, ⟨1, 5, 10, 1, 1, 7, 0, 30⟩, ⟨1, 11, 19, 2, 0, 0, 0, 30⟩,
     ⟨1, 20, 25, 1, 1, 7, 0, 30⟩, ⟨1, 26, 30, 2, 0, 0, 0, 30⟩] ⟨1, 0, 30⟩
    rfl (by simp) (List.mem_cons_self _ _)

theorem resolveGo_none {cs : List (Option Int)} :
    ∀ {acc : Option (Int × Int)} {i : Nat}, resolveGo acc i cs = none →
      acc = none ∧ ∀ j v, cs.get? j ≠ some (some v) := by
  induction cs with
  | nil =>
      intro acc i h
      refine ⟨h, ?_⟩
      intro j v hj
      cases j <;> cases hj
  | cons c rest ih =>
      intro acc i h
      obtain ⟨h1, h2⟩ := ih h
      cases c with
      | none =>
          refine ⟨h1, ?_⟩
          intro j v hj
          cases j with
          | zero => cases Option.some.inj hj
          | succ j => exact h2 j v hj
      | some v =>
          exfalso
          cases acc with
          | none => exact Option.noConfusion h1
          | some a =>
              obtain ⟨ad, at'⟩ := a
              have h1' : (if v < ad then some (v, (i : Int) + 2)
                  else some (ad, at')) = none := h1
              by_cases hv : v < ad
              · rw [if_pos hv] at h1'
                exact Option.noConfusion h1'
              · rw [if_neg hv] at h1'
                exact Option.noConfusion h1'

theorem resolveGo_le {cs : List (Option Int)} :
    ∀ {acc : Option (Int × Int)} {i : Nat} {d t : Int},
      resolveGo acc i cs = some (d, t) →
      (∀ a ta, acc = some (a, ta) → d ≤ a) ∧ (∀ j v, cs.get? j = some (some v) → d ≤ v) := by
  induction cs with
  | nil =>
      intro acc i d t h
      have h' : acc = some (d, t) := h
      refine ⟨?_, ?_⟩
      · intro a ta ha
        rw [ha] at h'
        exact le_of_eq (congrArg Prod.fst (Option.some.inj h')).symm
      · intro j v hj
        cases j <;> cases hj
  | cons c rest ih =>
      intro acc i d t h
      obtain ⟨h1, h2⟩ := ih h
      refine ⟨?_, ?_⟩
      · intro a ta ha
        subst ha
        cases c with
        | none => exact h1 a ta rfl
        | some v =>
            have h1' : ∀ b tb, (if v < a then some (v, (i : Int) + 2)
                else some (a, ta)) = some (b, tb) → d ≤ b := h1
            by_cases hv : v < a
            · rw [if_pos hv] at h1'
              exact le_trans (h1' v ((i : Int) + 2) rfl) (le_of_lt hv)
            · rw [if_neg hv] at h1'
              exact h1' a ta rfl
      · intro j v hj
        cases j with
        | zero =>
            have hc : c = some v := Option.some.inj hj
            subst hc
            cases hacc : acc with
            | none =>
                rw [hacc] at h1
                exact h1 v ((i : Int) + 2) rfl
            | some a =>
                obtain ⟨ad, at'⟩ := a
                rw [hacc] at h1
                have h1' : ∀ b tb, (if v < ad then some (v, (i : Int) + 2)
                    else some (ad, at')) = some (b, tb) → d ≤ b := h1
                by_cases hv : v < ad
                · rw [if_pos hv] at h1'
                  exact h1' v ((i : Int) + 2) rfl
                · rw [if_neg hv] at h1'
                  exact le_trans (h1' ad at' rfl) (not_lt.mp hv)
        | succ j => exact h2 j v hj

theorem resolveGo_origin {cs : List (Option Int)} :
    ∀ {acc : Option (Int × Int)} {i : Nat} {d t : Int},
      resolveGo acc i cs = some (d, t) →
      acc = some (d, t) ∨
        ∃ j v, cs.get? j = some (some v) ∧ v = d ∧ t = ((i + j : Nat) : Int) + 2 := by
  induction cs with
  | nil =>
      intro acc i d t h
      exact Or.inl h
  | cons c rest ih =>
      intro acc i d t h
      rcases ih h with hacc2 | ⟨j, v, hj, hv, ht⟩
      · cases c with
        | none => exact Or.inl hacc2
        | some v =>
            cases hacc : acc with
            | none =>
                rw [hacc] at hacc2
                have hacc2' : some (v, (i : Int) + 2) = some (d, t) := hacc2
                have hp := Option.some.inj hacc2'
                refine Or.inr ⟨0, v, rfl, congrArg Prod.fst hp, ?_⟩
                have := congrArg Prod.snd hp
                simp only at this
                omega
            | some a =>
                obtain ⟨ad, at'⟩ := a
                rw [hacc] at hacc2
                have hacc2' : (if v < ad then some (v, (i : Int) + 2)
                    else some (ad, at')) = some (d, t) := hacc2
                by_cases hv : v < ad
                · rw [if_pos hv] at hacc2'
                  have hp := Option.some.inj hacc2'
                  refine Or.inr ⟨0, v, rfl, congrArg Prod.fst hp, ?_⟩
                  have := congrArg Prod.snd hp
                  simp only at this
                  omega
                · rw [if_neg hv] at hacc2'
                  exact Or.inl hacc2' 
      · refine Or.inr ⟨j + 1, v, hj, hv, ?_⟩
        rw [ht]
        push_cast
        ring

theorem mem_tveventSub_some {mode : EvMode} {ivs : List IvRow} {d t : Int} {r : FRow}
    (hr : r ∈ tveventSub mode ivs (some (d, t))) :
    r ∈ (splitStage ivs d).map (flagRow d t) := by
  cases mode with
  | recurring =>
      have hr2 : r ∈ sortBy frowLe ((splitStage ivs d).map (flagRow d t)) := hr
      exact (sortBy_perm frowLe _).mem_iff.mp hr2
  | single =>
      cases hm : minStopFlagged ((splitStage ivs d).map (flagRow d t)) with
      | none =>
          have hr2 : r ∈ sortBy frowLe
              (match minStopFlagged ((splitStage ivs d).map (flagRow d t)) with
                | none => (splitStage ivs d).map (flagRow d t)
                | some fs => ((splitStage ivs d).map (flagRow d t)).filter
                    (fun r => decide (r.stop ≤ fs))) := hr
          rw [hm] at hr2
          exact (sortBy_perm frowLe _).mem_iff.mp hr2
      | some fs =>
          have hr2 : r ∈ sortBy frowLe
              (match minStopFlagged ((splitStage ivs d).map (flagRow d t)) with
                | none => (splitStage ivs d).map (flagRow d t)
                | some fs => ((splitStage ivs d).map (flagRow d t)).filter
                    (fun r => decide (r.stop ≤ fs))) := hr
          rw [hm] at hr2
          exact List.mem_of_mem_filter ((sortBy_perm frowLe _).mem_iff.mp hr2)

theorem length_filter_partition (p : α → Bool) (l : List α) :
    (l.filter p).length + (l.filter (fun x => !p x)).length = l.length := by
  induction l with
  | nil => rfl
  | cons x t ih =>
      by_cases hx : p x <;> simp [List.filter_cons, hx] <;> omega

theorem splitStage_length (ivs : List IvRow) (d : Int) :
    (splitStage ivs d).length = ivs.length + (ivs.filter (internalAt d)).length := by
  rw [splitStage]
  simp only [List.length_append, List.length_map]
  have h := length_filter_partition (internalAt d) ivs
  omega

/-- C2: whenever an events row has a non-missing competing-risk date that is
strictly earlier than the primary date (or the primary date is missing), the
effective event resolved by tvevent (tvevent.py lines 182-196) is the earliest
non-missing competing date, its type code is the corresponding column code
j + 2 and never the primary code 1, and every flagged interval of the subject
carries exactly that code. -/
theorem tvevent_c2 (e : EvRow) (i : Nat) (v : Int)
    (hc : e.compete.get? i = some (some v))
    (hp : e.date = none ∨ ∃ p, e.date = some p ∧ v < p) :
    ∃ d t, resolveEv e = some (d, t) ∧ t ≠ 1 ∧
      (∃ j : Nat, e.compete.get? j = some (some d) ∧ t = (j : Int) + 2) ∧
      (∀ j w, e.compete.get? j = some (some w) → d ≤ w) ∧
      (∀ p, e.date = some p → d < p) ∧
      (∀ mode ivs r, r ∈ tveventSub mode ivs (some (d, t)) → r.flag ≠ 0 → r.flag = t) := by
  cases hres : resolveEv e with
  | none =>
      exfalso
      exact (resolveGo_none hres).2 i v hc
  | some p =>
      obtain ⟨d, t⟩ := p
      have hle := resolveGo_le hres
      have horig := resolveGo_origin hres
      have hdv : d ≤ v := hle.2 i v hc
      have hdate : ∀ q, e.date = some q → d < q := by
        intro q hq
        rcases hp with hnone | ⟨p', hp', hvp⟩
        · rw [hq] at hnone
          cases hnone
        · rw [hq] at hp'
          have : q = p' := Option.some.inj hp'
          subst this
          exact lt_of_le_of_lt hdv hvp
      have hright : ∃ j w, e.compete.get? j = some (some w) ∧ w = d ∧
          t = ((0 + j : Nat) : Int) + 2 := by
        rcases horig with hleft | hr
        · exfalso
          cases hd : e.date with
          | none =>
              rw [hd] at hleft
              exact Option.noConfusion hleft
          | some q =>
              rw [hd] at hleft
              have hq := Option.some.inj hleft
              have hdq : q = d := congrArg Prod.fst hq
              exact absurd hdq.symm (ne_of_lt (hdate q hd))
        · exact hr
      obtain ⟨j, w, hj, hw, ht⟩ := hright
      subst hw
      refine ⟨w, t, rfl, ?_, ⟨j, hj, by rw [ht]; push_cast; ring⟩, hle.2, hdate, ?_⟩
      · rw [ht]
        push_cast
        omega
      · intro mode ivs r hr hflag
        rcases List.mem_map.mp (mem_tveventSub_some hr) with ⟨iv, _, hiv⟩
        rw [← hiv] at hflag ⊢
        simp only [flagRow] at hflag ⊢
        by_cases hs : iv.stop = w
        · rw [if_pos hs]
        · rw [if_neg hs] at hflag
          exact absurd rfl hflag

/-- Instantiation of the C2 theorem: primary date 10, competing column 1
holds date 7, so the effective event has the competing code and date. -/
theorem tvevent_c2_witness :
    ∃ d t, resolveEv ⟨1, some 10, [none, some 7]⟩ = some (d, t) ∧ t ≠ 1 ∧
      (∃ j : Nat, ([none, some 7] : List (Option Int)).get? j = some (some d) ∧
        t = (j : Int) + 2) ∧
      (∀ j w, ([none, some 7] : List (Option Int)).get? j = some (some w) → d ≤ w) ∧
      (∀ p, (some 10 : Option Int) = some p → d < p) ∧
      (∀ mode ivs r, r ∈ tveventSub mode ivs (some (d, t)) → r.flag ≠ 0 → r.flag = t) :=
  tvevent_c2 ⟨1, some 10, [none, some 7]⟩ 1 7 rfl (Or.inr ⟨10, rfl, by decide⟩)

/-- C4 counterexample: in single mode an event at the stop of the first
interval censors the later interval, so the subject's row count changes from
2 to 1 although nothing is split; and a one-day interval whose only day
equals the event date has start equal to the event date yet IS flagged
(the stop-equality test of tvevent.py line 292 takes precedence). -/
theorem tvevent_c4_counterexample :
    tvevent .single [⟨1, 0, 5⟩, ⟨1, 6, 10⟩] [⟨1, some 5, []⟩] = [⟨1, 0, 5, 1⟩] ∧
    tvevent .recurring [⟨1, 5, 5⟩, ⟨1, 6, 10⟩] [⟨1, some 5, []⟩]
      = [⟨1, 5, 5, 1⟩, ⟨1, 6, 10, 0⟩] :=
  ⟨rfl, rfl⟩

/-- C4 (amended): in recurring mode, a subject's row count grows by exactly
the number of intervals strictly containing the event date; an interval whose
stop equals the event date is kept unsplit and flagged with the event type; a
strictly internal event date yields a flagged pre-segment ending at the date
and an unflagged post-segment starting at it; and an interval that starts at
the event date and ends strictly later is kept unsplit and unflagged
(tvevent.py lines 229-267 and 288-293). -/
theorem tvevent_c4_amended (ivs : List IvRow) (d t : Int) :
    (tveventSub .recurring ivs (some (d, t))).length
        = ivs.length + (ivs.filter (internalAt d)).length ∧
    (∀ iv ∈ ivs, iv.stop = d →
        (⟨iv.pid, iv.start, iv.stop, t⟩ : FRow) ∈ tveventSub .recurring ivs (some (d, t))) ∧
    (∀ iv ∈ ivs, iv.start < d → d < iv.stop →
        (⟨iv.pid, iv.start, d, t⟩ : FRow) ∈ tveventSub .recurring ivs (some (d, t)) ∧
        (⟨iv.pid, d, iv.stop, 0⟩ : FRow) ∈ tveventSub .recurring ivs (some (d, t))) ∧
    (∀ iv ∈ ivs, iv.start = d → d < iv.stop →
        (⟨iv.pid, iv.start, iv.stop, 0⟩ : FRow) ∈ tveventSub .recurring ivs (some (d, t))) := by
  have hsub : tveventSub .recurring ivs (some (d, t))
      = sortBy frowLe ((splitStage ivs d).map (flagRow d t)) := rfl
  have hmem : ∀ x : FRow, x ∈ (splitStage ivs d).map (flagRow d t) →
      x ∈ tveventSub .recurring ivs (some (d, t)) := by
    intro x hx
    rw [hsub]
    exact (sortBy_perm frowLe _).mem_iff.mpr hx
  refine ⟨?_, ?_, ?_, ?_⟩
  · rw [hsub, (sortBy_perm frowLe _).length_eq, List.length_map, splitStage_length]
  · intro iv hiv hstop
    have hni : internalAt d iv = false := by
      simp only [internalAt, gt_iff_lt, Bool.and_eq_false_iff, decide_eq_false_iff_not, not_lt]
      right
      omega
    refine hmem _ (List.mem_map.mpr ⟨iv, ?_, ?_⟩)
    · exact List.mem_append.mpr (Or.inl (List.mem_append.mpr (Or.inl
        (List.mem_filter.mpr ⟨hiv, by rw [hni]; rfl⟩))))
    · simp [flagRow, hstop]
  · intro iv hiv h1 h2
    have hint : internalAt d iv = true := by
      simp only [internalAt, gt_iff_lt, Bool.and_eq_true, decide_eq_true_eq]
      exact ⟨h1, h2⟩
    constructor
    · refine hmem _ (List.mem_map.mpr ⟨⟨iv.pid, iv.start, d⟩, ?_, ?_⟩)
      · refine List.mem_append.mpr (Or.inl (List.mem_append.mpr (Or.inr ?_)))
        exact List.mem_map.mpr ⟨iv, List.mem_filter.mpr ⟨hiv, hint⟩, rfl⟩
      · simp [flagRow]
    · refine hmem _ (List.mem_map.mpr ⟨⟨iv.pid, d, iv.stop⟩, ?_, ?_⟩)
      · refine List.mem_append.mpr (Or.inr ?_)
        exact List.mem_map.mpr ⟨iv, List.mem_filter.mpr ⟨hiv, hint⟩, rfl⟩
      · simp only [flagRow]
        rw [if_neg (by omega)]
  · intro iv hiv h1 h2
    have hni : internalAt d iv = false := by
      simp only [internalAt, gt_iff_lt, Bool.and_eq_false_iff, decide_eq_false_iff_not, not_lt]
      left
      omega
    refine hmem _ (List.mem_map.mpr ⟨iv, ?_, ?_⟩)
    · exact List.mem_append.mpr (Or.inl (List.mem_append.mpr (Or.inl
        (List.mem_filter.mpr ⟨hiv, by rw [hni]; rfl⟩))))
    · simp only [flagRow]
      rw [if_neg (by omega)]

/-- Instantiation of the amended C4 theorem on three intervals: one ending
at the event date 15 (flagged, unsplit), one strictly containing it (split
into a flagged pre-segment and an unflagged post-segment), and one starting
at it (unflagged, unsplit). -/
theorem tvevent_c4_amended_witness :
    (tveventSub .recurring [⟨1, 0, 15⟩, ⟨2, 10, 20⟩, ⟨3, 15, 25⟩] (some (15, 4))).length
        = ([⟨1, 0, 15⟩, ⟨2, 10, 20⟩, ⟨3, 15, 25⟩] : List IvRow).length
          + (([⟨1, 0, 15⟩, ⟨2, 10, 20⟩, ⟨3, 15, 25⟩] : List IvRow).filter
              (internalAt 15)).length ∧
    (⟨1, 0, 15, 4⟩ : FRow) ∈
      tveventSub .recurring [⟨1, 0, 15⟩, ⟨2, 10, 20⟩, ⟨3, 15, 25⟩] (some (15, 4)) ∧
    (⟨2, 10, 15, 4⟩ : FRow) ∈
      tveventSub .recurring [⟨1, 0, 15⟩, ⟨2, 10, 20⟩, ⟨3, 15, 25⟩] (some (15, 4)) ∧
    (⟨2, 15, 20, 0⟩ : FRow) ∈
      tveventSub .recurring [⟨1, 0, 15⟩, ⟨2, 10, 20⟩, ⟨3, 15, 25⟩] (some (15, 4)) ∧
    (⟨3, 15, 25, 0⟩ : FRow) ∈
      tveventSub .recurring [⟨1, 0, 15⟩, ⟨2, 10, 20⟩, ⟨3, 15, 25⟩] (some (15, 4)) :=
  ⟨(tvevent_c4_amended [⟨1, 0, 15⟩, ⟨2, 10, 20⟩, ⟨3, 15, 25⟩] 15 4).1,
   (tvevent_c4_amended [⟨1, 0, 15⟩, ⟨2, 10, 20⟩, ⟨3, 15, 25⟩] 15 4).2.1
     ⟨1, 0, 15⟩ (List.mem_cons_self _ _) rfl,
   ((tvevent_c4_amended [⟨1, 0, 15⟩, ⟨2, 10, 20⟩, ⟨3, 15, 25⟩] 15 4).2.2.1
     ⟨2, 10, 20⟩ (List.mem_cons_of_mem _ (List.mem_cons_self _ _))
     (by decide) (by decide)).1,
   ((tvevent_c4_amended [⟨1, 0, 15⟩, ⟨2, 10, 20⟩, ⟨3, 15, 25⟩] 15 4).2.2.1
     ⟨2, 10, 20⟩ (List.mem_cons_of_mem _ (List.mem_cons_self _ _))
     (by decide) (by decide)).2,
   (tvevent_c4_amended [⟨1, 0, 15⟩, ⟨2, 10, 20⟩, ⟨3, 15, 25⟩] 15 4).2.2.2
     ⟨3, 15, 25⟩ (List.mem_cons_of_mem _ (List.mem_cons_of_mem _ (List.mem_cons_self _ _)))
     rfl (by decide)⟩

/-- C9: whenever the split stage of tvevent cuts an interval at a strictly
internal effective event date d, the pre-event segment [start, d] and the
post-event segment [d, stop] both appear in the stage output, both contain
day d, and their inclusive day-counts sum to the original interval's
inclusive day-count plus one (tvevent.py lines 241-256). -/
theorem tvevent_c9 (ivs : List IvRow) (d : Int) (iv : IvRow)
    (hm : iv ∈ ivs) (h1 : iv.start < d) (h2 : d < iv.stop) :
    (⟨iv.pid, iv.start, d⟩ : IvRow) ∈ splitStage ivs d ∧
    (⟨iv.pid, d, iv.stop⟩ : IvRow) ∈ splitStage ivs d ∧
    iv.start ≤ d ∧ d ≤ iv.stop ∧
    (d - iv.start + 1) + (iv.stop - d + 1) = (iv.stop - iv.start + 1) + 1 := by
  have hint : internalAt d iv = true := by
    simp only [internalAt, gt_iff_lt, Bool.and_eq_true, decide_eq_true_eq]
    exact ⟨h1, h2⟩
  refine ⟨?_, ?_, le_of_lt h1, le_of_lt h2, by ring⟩
  · refine List.mem_append.mpr (Or.inl (List.mem_append.mpr (Or.inr ?_)))
    exact List.mem_map.mpr ⟨iv, List.mem_filter.mpr ⟨hm, hint⟩, rfl⟩
  · refine List.mem_append.mpr (Or.inr ?_)
    exact List.mem_map.mpr ⟨iv, List.mem_filter.mpr ⟨hm, hint⟩, rfl⟩

/-- Instantiation of the C9 theorem: splitting [0, 10] at the internal day 5
yields the segments [0, 5] and [5, 10], whose day-counts 6 + 6 equal the
original 11 plus one. -/
theorem tvevent_c9_witness :
    (⟨1, 0, 5⟩ : IvRow) ∈ splitStage [⟨1, 0, 10⟩] 5 ∧
    (⟨1, 5, 10⟩ : IvRow) ∈ splitStage [⟨1, 0, 10⟩] 5 ∧
    (0 : Int) ≤ 5 ∧ (5 : Int) ≤ 10 ∧
    ((5 : Int) - 0 + 1) + (10 - 5 + 1) = ((10 : Int) - 0 + 1) + 1 :=
  tvevent_c9 [⟨1, 0, 10⟩] 5 ⟨1, 0, 10⟩ (List.mem_singleton.mpr rfl) (by decide) (by decide)

end TvTools
